import Mathlib

/-!
Verification development for the `doi-paper-scraper` repository
(`academic_paper_api`): a shallow embedding of the pure/algorithmic
parts of the code (DOI extraction, proxy-URL rewriting, cookie
normalization, keyword extraction, figure extraction, filename
sanitization, image-download bookkeeping, browser-session teardown)
together with theorems settling the specification claims.

Text is modelled as `List Char` (Python `str`); Python `None`/absent
values as `Option`; raised exceptions as `Option.none` or an explicit
result datatype.  Python's Unicode-aware character classes (`\s`, `\d`,
`str.lower`, `str.isalnum`) are modelled by their ASCII cores.
-/

namespace PaperScraper

/-! ## Basic text utilities (models of Python str helpers) -/

/-- Model of Python's whitespace class (ASCII core of `\s` / `str.strip`). -/
def isWS (c : Char) : Bool := c.isWhitespace

/-- Model of Python's `\d` (ASCII decimal digits). -/
def isDig (c : Char) : Bool := c.isDigit

/-- Model of Python `str.strip()` (no arguments): drop whitespace from both ends. -/
def pyStrip (l : List Char) : List Char :=
  ((l.dropWhile isWS).reverse.dropWhile isWS).reverse

/-- Model of `re.sub(r"\s+", " ", s)`: collapse each maximal whitespace run
to a single space. -/
def collapseWS : List Char → List Char
  | [] => []
  | [c] => if isWS c then [' '] else [c]
  | c :: d :: r =>
    if isWS c then
      (if isWS d then collapseWS (d :: r) else ' ' :: collapseWS (d :: r))
    else c :: collapseWS (d :: r)

/-- Model of `BaseScraper._clean_text` (`base.py`): collapse internal
whitespace runs to a single space and trim both ends; `None` and `""`
both map to `""` (here `[]`). -/
def cleanText (l : List Char) : List Char := pyStrip (collapseWS l)

/-- Does `l` start with `pat`?  Model of Python `str.startswith`. -/
def startsList : List Char → List Char → Bool
  | [], _ => true
  | _ :: _, [] => false
  | p :: ps, c :: cs => p = c && startsList ps cs

/-- Does `pat` occur as a contiguous substring of `l`?  Model of Python `in`. -/
def hasSub (pat : List Char) : List Char → Bool
  | [] => pat.isEmpty
  | c :: r => startsList pat (c :: r) || hasSub pat r

/-- Index of the first occurrence of character `ch`, model of `str.find`
(returning `none` for `-1`). -/
def idxOfCh (ch : Char) : List Char → Option Nat
  | [] => none
  | c :: r => if c = ch then some 0 else (idxOfCh ch r).map (· + 1)

/-- Split at the first occurrence of `ch` (the occurrence removed), model of
`str.split(ch, 1)` when the character occurs. -/
def splitAtCh (ch : Char) : List Char → Option (List Char × List Char)
  | [] => none
  | c :: r =>
    if c = ch then some ([], r)
    else (splitAtCh ch r).map (fun p => (c :: p.1, p.2))

/-- Model of `str.split(ch)`: split on every occurrence of `ch`. -/
def splitCh (ch : Char) : List Char → List (List Char)
  | [] => [[]]
  | c :: r =>
    match splitCh ch r with
    | [] => [[]]
    | s :: ss => if c = ch then [] :: s :: ss else (c :: s) :: ss

/-- ASCII lower-casing of a string, model of `str.lower` on the ASCII core. -/
def lowerStr (l : List Char) : List Char := l.map Char.toLower

/-! ## Document model (`models.py`) -/

/-- Model of the `Figure` dataclass. -/
structure Figure where
  url : List Char
  local_path : List Char := []
  caption : List Char := []
  figure_id : List Char := []
deriving DecidableEq

/-- A section's content element: Python `list[str | Figure]`. -/
inductive ContentBlock where
  | text (s : List Char)
  | figure (f : Figure)
deriving DecidableEq

/-- Model of the `Section` dataclass. -/
structure Section where
  heading : List Char
  level : Nat
  content : List ContentBlock
deriving DecidableEq

/-! ## Fallback "Abstract" section (`acm.py` lines 138-143, `ieee.py` lines 180-184)

Both `_scrape_async` methods end with
`if not paper.sections and paper.abstract: paper.sections = [Section(heading="Abstract", level=2, content=[paper.abstract])]`.
The two functions below embed that final step of each engine, taking the
sections discovered so far and the extracted abstract. -/

/-- Final sections step of `ACMScraper._scrape_async`. -/
def acm_finalize_sections (discovered : List Section) (abstract : List Char) :
    List Section :=
  if discovered = [] ∧ abstract ≠ [] then
    [⟨"Abstract".data, 2, [ContentBlock.text abstract]⟩]
  else discovered

/-- Final sections step of `IEEEScraper._scrape_async`. -/
def ieee_finalize_sections (discovered : List Section) (abstract : List Char) :
    List Section :=
  if discovered = [] ∧ abstract ≠ [] then
    [⟨"Abstract".data, 2, [ContentBlock.text abstract]⟩]
  else discovered

/-! ## Keyword extraction (`acm.py` lines 102-109, `ieee.py` lines 165-173) -/

/-- Model of `dict.fromkeys`-based de-duplication (`list(dict.fromkeys(xs))`):
keep the first occurrence of each element, in order, tracking seen keys. -/
def pyDedupGo : List (List Char) → List (List Char) → List (List Char)
  | _, [] => []
  | seen, x :: r =>
    if x ∈ seen then pyDedupGo seen r else x :: pyDedupGo (x :: seen) r

/-- Model of `list(dict.fromkeys(l))`. -/
def pyDedup (l : List (List Char)) : List (List Char) := pyDedupGo [] l

/-- Keyword extraction of `ACMScraper._scrape_async`: if `#sec-terms` was
found, `[clean(k.text) for k in kw_links if k.text and clean(k.text)]`;
otherwise the paper's default empty list.  `kwSection` carries the texts of
the `a` elements of the section when it was found. -/
def acm_keywords (kwSection : Option (List (List Char))) : List (List Char) :=
  match kwSection with
  | none => []
  | some links =>
    (links.filter (fun t => t ≠ [] ∧ cleanText t ≠ [])).map cleanText

/-- Keyword extraction of `IEEEScraper._scrape_async`:
`list(dict.fromkeys(clean(k.text) for k in keyword_els if k.text))`. -/
def ieee_keywords (texts : List (List Char)) : List (List Char) :=
  pyDedup ((texts.filter (fun t => t ≠ [])).map cleanText)

/-- Declarative first-occurrence de-duplication, used to state what
"de-duplicated preserving first occurrence" means independently of the
accumulator-based `pyDedup`. -/
def firstOccur : List (List Char) → List (List Char)
  | [] => []
  | x :: r => x :: (firstOccur r).filter (fun y => y ≠ x)

/-! ## Cookie normalization (`base.py` lines 136-179) -/

/-- A raw browser-extension cookie record (generic cookie-export schema).
`Option` marks a field that may be absent from the record; numbers are
modelled as `Nat` (`0` is the only falsy value). -/
structure RawCookie where
  name : List Char
  value : List Char
  domain : Option (List Char) := none
  path : Option (List Char) := none
  secure : Option Bool := none
  httpOnly : Option Bool := none
  expirationDate : Option Nat := none
  sameSite : Option (List Char) := none
deriving DecidableEq

/-- A CDP-format cookie as built by `_convert_cookies_for_cdp`; `none`
means the key is not present in the emitted dict. -/
structure CdpCookie where
  name : List Char
  value : List Char
  domain : Option (List Char) := none
  path : Option (List Char) := none
  secure : Option Bool := none
  httpOnly : Option Bool := none
  expires : Option Nat := none
  sameSite : Option (List Char) := none
deriving DecidableEq

/-- The `same_site_map` dict with its `.get(ss, "Lax")` default. -/
def sameSiteMap (ss : List Char) : List Char :=
  if ss = "no_restriction".data then "None".data
  else if ss = "lax".data then "Lax".data
  else if ss = "strict".data then "Strict".data
  else "Lax".data

/-- Conversion of a single record inside the `for raw in raw_cookies` loop of
`BaseScraper._convert_cookies_for_cdp`. -/
def convert_cookie (raw : RawCookie) : CdpCookie :=
  { name := raw.name
    value := raw.value
    domain := match raw.domain with
      | some d => if d ≠ [] then some d else none
      | none => none
    path := raw.path
    secure := raw.secure
    httpOnly := raw.httpOnly
    expires := match raw.expirationDate with
      | some e => if e ≠ 0 then some e else none
      | none => none
    sameSite := match raw.sameSite with
      | some s => if s ≠ [] then some (sameSiteMap (lowerStr s)) else none
      | none => none }

/-- Model of `BaseScraper._convert_cookies_for_cdp`. -/
def convert_cookies_for_cdp (l : List RawCookie) : List CdpCookie :=
  l.map convert_cookie

/-! ## Filename sanitization (`markdown_builder.py` lines 83-104) -/

/-- The allow-list of `save_paper`: `c.isalnum() or c in " -_"` (ASCII core
of `isalnum`). -/
def allowedFnChar (c : Char) : Bool :=
  c.isAlphanum || c = ' ' || c = '-' || c = '_'

/-- `safe_title` of `save_paper`:
`"".join(c if c.isalnum() or c in " -_" else "_" for c in paper.title)[:80].strip()`. -/
def sanitize_title (title : List Char) : List Char :=
  pyStrip ((title.map (fun c => if allowedFnChar c then c else '_')).take 80)

/-- The filename chosen by `save_paper`:
`f"{safe_title}.md" if safe_title else "paper.md"`. -/
def save_paper_filename (title : List Char) : List Char :=
  if sanitize_title title ≠ [] then sanitize_title title ++ ".md".data
  else "paper.md".data

/-! ## Image download (`base.py` lines 265-336)

`_download_image` is modelled as a state transformer over an explicit
file-system state; the browser-side fetch (JS `window.fetch` + base64) is an
input `FetchOutcome`, and `hashlib.md5(url).hexdigest()` an input function
`md5hex` (an external library call; only its functional dependence on the
URL matters). -/

/-- Explicit file-system state: the set of existing files and directories. -/
structure FileSystem where
  files : List (List Char)
  dirs : List (List Char)
deriving DecidableEq

/-- Outcome of the in-browser fetch script: base64 data, a response with no
data (`b64_data` falsy), or a raised exception. -/
inductive FetchOutcome where
  | success (b64 : List Char)
  | noData
  | failure
deriving DecidableEq

/-- Result of one `_download_image` call: returned path, file system after
the call, whether `images_dir.mkdir` ran, whether the in-browser fetch ran. -/
structure DownloadResult where
  path : List Char
  fs : FileSystem
  madeDir : Bool
  fetched : Bool
deriving DecidableEq

/-- Index of the last occurrence of `ch`, model of `str.rfind`. -/
def lastIdxOfCh (ch : Char) (l : List Char) : Option Nat :=
  (idxOfCh ch l.reverse).map (fun i => l.length - 1 - i)

/-- `pathlib`'s `suffix` of a file name: the part from the last dot on,
provided that dot is neither the first nor the last character. -/
def pySuffix (nameStr : List Char) : List Char :=
  match lastIdxOfCh '.' nameStr with
  | none => []
  | some i => if 0 < i ∧ i < nameStr.length - 1 then nameStr.drop i else []

/-- `pathlib`'s `name` of a path: the last component ( `""` and `"."`
segments dropped). -/
def pathName (p : List Char) : List Char :=
  match ((splitCh '/' p).filter (fun s => s ≠ [] ∧ s ≠ ".".data)).getLast? with
  | some s => s
  | none => []

/-- `ext = Path(url.split("?")[0]).suffix or ".png"` in `_download_image`. -/
def imageExt (url : List Char) : List Char :=
  let s := pySuffix (pathName (url.takeWhile (fun c => c ≠ '?')))
  if s = [] then ".png".data else s

/-- `filename = f"fig_{name_hash}{ext}"` with
`name_hash = hashlib.md5(url.encode()).hexdigest()[:12]`. -/
def fig_filename (md5hex : List Char → List Char) (url : List Char) :
    List Char :=
  "fig_".data ++ (md5hex url).take 12 ++ imageExt url

/-- `images_dir = output_dir / "images"`. -/
def imagesDirOf (outputDir : List Char) : List Char :=
  outputDir ++ "/images".data

/-- Effect of `images_dir.mkdir(parents=True, exist_ok=True)` on the
file-system state. -/
def mkdirFS (fs : FileSystem) (outputDir : List Char) : FileSystem :=
  ⟨fs.files,
    if imagesDirOf outputDir ∈ fs.dirs then fs.dirs
    else imagesDirOf outputDir :: fs.dirs⟩

/-- `dest = images_dir / filename`. -/
def destOf (md5hex : List Char → List Char) (url outputDir : List Char) :
    List Char :=
  imagesDirOf outputDir ++ "/".data ++ fig_filename md5hex url

/-- Model of `BaseScraper._download_image`. -/
def download_image (md5hex : List Char → List Char) (tabPresent : Bool)
    (url outputDir : List Char) (fs : FileSystem) (fetch : FetchOutcome) :
    DownloadResult :=
  if url = [] ∨ startsList "data:".data url then ⟨[], fs, false, false⟩
  else if destOf md5hex url outputDir ∈ (mkdirFS fs outputDir).files then
    ⟨"images/".data ++ fig_filename md5hex url, mkdirFS fs outputDir, true,
      false⟩
  else if tabPresent = false then ⟨[], mkdirFS fs outputDir, true, false⟩
  else
    match fetch with
    | .success _ =>
      ⟨"images/".data ++ fig_filename md5hex url,
        ⟨destOf md5hex url outputDir :: (mkdirFS fs outputDir).files,
          (mkdirFS fs outputDir).dirs⟩, true, true⟩
    | .noData => ⟨[], mkdirFS fs outputDir, true, true⟩
    | .failure => ⟨[], mkdirFS fs outputDir, true, true⟩

/-! ## Browser-session scope (`base.py` lines 111-134 and 239-250)

`_browser_tab` wraps the yielded body in `try ... finally:` with
`if cookies_file: await self._save_cookies(tab, cookies_file)` in the
`finally` block; `_save_cookies` wraps its whole body in
`try ... except Exception`.  The exception flow is modelled with an
explicit result type. -/

/-- A Python evaluation outcome: normal value or raised exception
(exceptions distinguished by an opaque code). -/
inductive PyResult (α : Type) where
  | ok (a : α)
  | exn (e : Nat)
deriving DecidableEq

/-- Python `try: body finally: fin` result: the `finally` block runs
unconditionally, and an exception it raises replaces the body's outcome. -/
def tryFinallyR {α : Type} (body : PyResult α) (fin : PyResult Unit) :
    PyResult α :=
  match fin with
  | .exn e => .exn e
  | .ok _ => body

/-- Model of `BaseScraper._save_cookies`: `get_cookies`, then (when the list
is truthy) the file write — both inside `try ... except Exception`, so every
failure is swallowed. -/
def save_cookies (getCookies : PyResult (List RawCookie))
    (writeFile : List RawCookie → PyResult Unit) : PyResult Unit :=
  match getCookies with
  | .exn _ => .ok ()
  | .ok cs =>
    if cs ≠ [] then
      match writeFile cs with
      | .exn _ => .ok ()
      | .ok _ => .ok ()
    else .ok ()

/-- Model of the `try/finally` around `yield tab` in
`BaseScraper._browser_tab`, from the point where the session is open:
given the body's outcome, return the scope's outcome together with whether
the cookie save ran. -/
def browser_tab_run {α : Type} (cookiesFile : Option (List Char))
    (body : PyResult α) (getCookies : PyResult (List RawCookie))
    (writeFile : List RawCookie → PyResult Unit) : PyResult α × Bool :=
  let doSave := match cookiesFile with
    | some s => s ≠ []
    | none => false
  let finRes := if doSave then save_cookies getCookies writeFile else .ok ()
  (tryFinallyR body finRes, doSave)

/-! ## DOI extraction (`doi_resolver.py` lines 21 and 54-78)

`DOI_PATTERN = re.compile(r"(10\.\d{4,9}/[^\s]+)")` and
`extract_doi` = strip, search, and on a match strip trailing `.,;:)`;
no match raises `ValueError`, modelled as `none`.  The regex search is
embedded operationally: at each start position the pattern either matches
a maximal digit run of length 4-9 followed by `/` and a maximal non-empty
non-whitespace token, or fails; the leftmost matching position wins. -/

/-- One attempted regex match of `DOI_PATTERN` anchored at the head of `l`,
returning the matched substring: the literal `10.`, then a maximal digit
run of length 4 to 9 (the greedy `\d{4,9}` backtracks over a maximal run
only down to the run itself followed by `/`), then `/`, then the maximal
non-empty run of non-whitespace characters (greedy `[^\s]+`). -/
def matchAt (l : List Char) : Option (List Char) :=
  match l with
  | c1 :: c2 :: c3 :: r =>
    if c1 = '1' ∧ c2 = '0' ∧ c3 = '.' then
      let ds := r.takeWhile isDig
      if 4 ≤ ds.length ∧ ds.length ≤ 9 then
        match r.drop ds.length with
        | c4 :: r2 =>
          if c4 = '/' then
            let tok := r2.takeWhile (fun c => !isWS c)
            if tok ≠ [] then some (c1 :: c2 :: c3 :: (ds ++ c4 :: tok))
            else none
          else none
        | [] => none
      else none
    else none
  | _ => none

/-- `DOI_PATTERN.search`: try every start position left to right. -/
def searchDOI : List Char → Option (List Char)
  | [] => none
  | c :: r =>
    match matchAt (c :: r) with
    | some m => some m
    | none => searchDOI r

/-- Model of `str.rstrip(".,;:)")`. -/
def rstripPunct (l : List Char) : List Char :=
  (l.reverse.dropWhile
    (fun c => c = '.' || c = ',' || c = ';' || c = ':' || c = ')')).reverse

/-- Model of `extract_doi` (`doi_resolver.py`): strip the input, search for
the DOI pattern, and return the match with trailing punctuation stripped;
`none` models the raised `ValueError`. -/
def extract_doi (s : List Char) : Option (List Char) :=
  (searchDOI (pyStrip s)).map rstripPunct

/-- Declarative statement of the DOI pattern `10.<4-9 digits>/<token>`:
used to phrase the claims about `extract_doi` independently of the scanner. -/
def PatMatch (m : List Char) : Prop :=
  ∃ ds tok, m = '1' :: '0' :: '.' :: (ds ++ '/' :: tok) ∧
    (∀ c ∈ ds, isDig c = true) ∧ 4 ≤ ds.length ∧ ds.length ≤ 9 ∧
    tok ≠ [] ∧ (∀ c ∈ tok, isWS c = false)

/-- `m` occurs as a contiguous substring of `l`. -/
def OccIn (m l : List Char) : Prop := ∃ pre suf, l = pre ++ m ++ suf

/-- `m` occurs as a contiguous substring of `l` starting at index `i`. -/
def OccAt (m l : List Char) (i : Nat) : Prop :=
  ∃ pre suf, pre.length = i ∧ l = pre ++ m ++ suf

/-- `l` contains a substring matching the DOI pattern. -/
def HasPat (l : List Char) : Prop := ∃ m, PatMatch m ∧ OccIn m l

/-! ## Percent-encoding (`urllib.parse.quote(url, safe="")`)

`quote` with `safe=""` keeps only ASCII letters, digits and `_.-~`, and
percent-encodes every other UTF-8 byte as `%XX` with uppercase hex. -/

/-- UTF-8 encoding of one character as its list of byte values. -/
def utf8Bytes (c : Char) : List Nat :=
  let n := c.toNat
  if n < 0x80 then [n]
  else if n < 0x800 then [0xC0 + n / 0x40, 0x80 + n % 0x40]
  else if n < 0x10000 then
    [0xE0 + n / 0x1000, 0x80 + (n / 0x40) % 0x40, 0x80 + n % 0x40]
  else
    [0xF0 + n / 0x40000, 0x80 + (n / 0x1000) % 0x40,
      0x80 + (n / 0x40) % 0x40, 0x80 + n % 0x40]

/-- Uppercase hex digit for a value below 16. -/
def hexDigitU (n : Nat) : Char :=
  if n < 10 then Char.ofNat (48 + n) else Char.ofNat (55 + n)

/-- `urllib.parse`'s `_ALWAYS_SAFE` byte set (letters, digits, `_.-~`),
which is the whole safe set when `safe=""`. -/
def alwaysSafeByte (b : Nat) : Bool :=
  (65 ≤ b && b ≤ 90) || (97 ≤ b && b ≤ 122) || (48 ≤ b && b ≤ 57) ||
    b = 95 || b = 46 || b = 45 || b = 126

/-- Quote one byte: keep it when safe, else emit `%` plus two uppercase hex
digits. -/
def quoteByte (b : Nat) : List Char :=
  if alwaysSafeByte b then [Char.ofNat b]
  else ['%', hexDigitU (b / 16), hexDigitU (b % 16)]

/-- Model of `urllib.parse.quote(s, safe="")`. -/
def pyQuote (s : List Char) : List Char :=
  (((s.map utf8Bytes).flatten).map quoteByte).flatten

/-! ## URL splitting (`urllib.parse.urlsplit` / `urlparse`)

Embeds the splitting logic of CPython's `urlsplit` (leading C0/space
lstrip, tab/CR/LF removal, scheme detection, netloc up to `/?#`, fragment
then query split) and `urlparse`'s extra params split.  The IPv6-bracket
and netloc-character validation (which raise on malformed hosts) is not
modelled. -/

/-- The five components returned by `urlsplit`. -/
structure SplitUrl where
  scheme : List Char
  netloc : List Char
  path : List Char
  query : List Char
  fragment : List Char
deriving DecidableEq

/-- The six components returned by `urlparse`. -/
structure ParsedUrl where
  scheme : List Char
  netloc : List Char
  path : List Char
  params : List Char
  query : List Char
  fragment : List Char
deriving DecidableEq

/-- `scheme_chars` of `urllib.parse`. -/
def schemeChar (c : Char) : Bool :=
  c.isAlpha || c.isDigit || c = '+' || c = '-' || c = '.'

/-- A C0 control character or space (`_WHATWG_C0_CONTROL_OR_SPACE`). -/
def c0OrSpace (c : Char) : Bool := c.toNat ≤ 32

/-- Remove `\t`, `\r`, `\n` everywhere (`_UNSAFE_URL_BYTES_TO_REMOVE`). -/
def removeUnsafe (l : List Char) : List Char :=
  l.filter (fun c => c ≠ '\t' ∧ c ≠ '\r' ∧ c ≠ '\n')

/-- Model of `urllib.parse.urlsplit(url, scheme=dflt)`. -/
def urlsplit (dflt : List Char) (url0 : List Char) : SplitUrl :=
  let url1 := removeUnsafe (url0.dropWhile c0OrSpace)
  let (scheme, rest) :=
    match idxOfCh ':' url1 with
    | some i =>
      let pre := url1.take i
      let preOk : Bool := match pre with
        | c :: cs => c.isAlpha && cs.all schemeChar
        | [] => false
      if 0 < i ∧ preOk = true then (lowerStr pre, url1.drop (i + 1))
      else (dflt, url1)
    | none => (dflt, url1)
  let (netloc, rest2) :=
    if startsList "//".data rest then
      let r := rest.drop 2
      (r.takeWhile (fun c => c ≠ '/' ∧ c ≠ '?' ∧ c ≠ '#'),
        r.dropWhile (fun c => c ≠ '/' ∧ c ≠ '?' ∧ c ≠ '#'))
    else ([], rest)
  let (rest3, fragment) :=
    match splitAtCh '#' rest2 with
    | some p => p
    | none => (rest2, [])
  let (path, query) :=
    match splitAtCh '?' rest3 with
    | some p => p
    | none => (rest3, [])
  ⟨scheme, netloc, path, query, fragment⟩

/-- `uses_params` of `urllib.parse`. -/
def usesParams (s : List Char) : Bool :=
  ["".data, "ftp".data, "hdl".data, "prospero".data, "http".data,
    "imap".data, "https".data, "shttp".data, "rtsp".data, "rtspu".data,
    "sip".data, "sips".data, "mms".data, "sftp".data, "tel".data].contains s

/-- `uses_relative` of `urllib.parse`. -/
def usesRelative (s : List Char) : Bool :=
  ["".data, "ftp".data, "http".data, "gopher".data, "nntp".data,
    "imap".data, "wais".data, "file".data, "https".data, "shttp".data,
    "mms".data, "prospero".data, "rtsp".data, "rtspu".data, "sftp".data,
    "svn".data, "svn+ssh".data, "ws".data, "wss".data].contains s

/-- `uses_netloc` of `urllib.parse`. -/
def usesNetloc (s : List Char) : Bool :=
  ["".data, "ftp".data, "http".data, "gopher".data, "nntp".data,
    "telnet".data, "imap".data, "wais".data, "file".data, "mms".data,
    "https".data, "shttp".data, "snews".data, "prospero".data,
    "rtsp".data, "rtspu".data, "rsync".data, "svn".data, "svn+ssh".data,
    "sftp".data, "nfs".data, "git".data, "git+ssh".data, "ws".data,
    "wss".data].contains s

/-- `_splitparams`: split `;params` off the path, only looking after the
last `/` when the path contains one. -/
def splitParams (url : List Char) : List Char × List Char :=
  if hasSub "/".data url then
    match lastIdxOfCh '/' url with
    | some j =>
      match splitAtCh ';' (url.drop j) with
      | some p => (url.take j ++ p.1, p.2)
      | none => (url, [])
    | none => (url, [])
  else
    match splitAtCh ';' url with
    | some p => p
    | none => (url, [])

/-- Model of `urllib.parse.urlparse(url, scheme=dflt)`. -/
def pyUrlparse (dflt : List Char) (url : List Char) : ParsedUrl :=
  let s := urlsplit dflt url
  if usesParams s.scheme ∧ hasSub ";".data s.path then
    let (p, ps) := splitParams s.path
    ⟨s.scheme, s.netloc, p, ps, s.query, s.fragment⟩
  else ⟨s.scheme, s.netloc, s.path, [], s.query, s.fragment⟩

/-- Model of `urllib.parse.urlunsplit`. -/
def urlunsplit (scheme netloc path query fragment : List Char) : List Char :=
  let u1 :=
    if netloc ≠ [] ∨ (path ≠ [] ∧ startsList "//".data path) then
      "//".data ++ netloc ++
        (if path ≠ [] ∧ ¬ startsList "/".data path then '/' :: path else path)
    else path
  let u2 := if scheme ≠ [] then scheme ++ ':' :: u1 else u1
  let u3 := if query ≠ [] then u2 ++ '?' :: query else u2
  if fragment ≠ [] then u3 ++ '#' :: fragment else u3

/-- Model of `urllib.parse.urlunparse`. -/
def urlunparse (scheme netloc path params query fragment : List Char) :
    List Char :=
  urlunsplit scheme netloc
    (if params ≠ [] then path ++ ';' :: params else path) query fragment

/-- The `..` / `.` segment-resolution loop of `urljoin`; the accumulator is
the resolved path in reverse (`pop` removes its head). -/
def resolveSegs : List (List Char) → List (List Char) → List (List Char)
  | acc, [] => acc.reverse
  | acc, seg :: rest =>
    if seg = "..".data then
      match acc with
      | [] => resolveSegs [] rest
      | _ :: a => resolveSegs a rest
    else if seg = ".".data then resolveSegs acc rest
    else resolveSegs (seg :: acc) rest

/-- `'/'.join(l)`. -/
def joinSlash (l : List (List Char)) : List Char :=
  List.intercalate "/".data l

/-- Model of `urllib.parse.urljoin`. -/
def urljoin (base url : List Char) : List Char :=
  if base = [] then url
  else if url = [] then base
  else
    let b := pyUrlparse [] base
    let u := pyUrlparse b.scheme url
    if u.scheme ≠ b.scheme ∨ usesRelative u.scheme = false then url
    else
      let netloc0 := u.netloc
      if usesNetloc u.scheme ∧ netloc0 ≠ [] then
        urlunparse u.scheme netloc0 u.path u.params u.query u.fragment
      else
        let netloc := if usesNetloc u.scheme then b.netloc else netloc0
        if u.path = [] ∧ u.params = [] then
          let query := if u.query = [] then b.query else u.query
          urlunparse u.scheme netloc b.path b.params query u.fragment
        else
          let baseParts0 := splitCh '/' b.path
          let baseParts :=
            if baseParts0.getLast? = some [] then baseParts0
            else baseParts0.dropLast
          let segs :=
            if startsList "/".data u.path then splitCh '/' u.path
            else
              let s0 := baseParts ++ splitCh '/' u.path
              match s0 with
              | [] => []
              | x :: rest =>
                match rest.getLast? with
                | none => [x]
                | some lastSeg =>
                  x :: (rest.dropLast.filter (fun s => s ≠ [])) ++ [lastSeg]
          let rp0 := resolveSegs [] segs
          let rp :=
            if segs.getLast? = some ".".data ∨ segs.getLast? = some "..".data
            then rp0 ++ [[]] else rp0
          let path := if joinSlash rp = [] then "/".data else joinSlash rp
          urlunparse u.scheme netloc path u.params u.query u.fragment

/-! ## Proxy URL rewriting (`base.py` lines 43-81) -/

/-- Python `str.replace(pat, rep)` specialized to a two-character pattern
`[p, q]`: scan left to right, replacing non-overlapping occurrences and
never rescanning the replacement text. -/
def replace2 (p q : Char) (rep : List Char) : List Char → List Char
  | [] => []
  | [c] => [c]
  | c :: d :: r =>
    if c = p ∧ d = q then rep ++ replace2 p q rep r
    else c :: replace2 p q rep (d :: r)

/-- The `%p` replacement text of `_build_proxied_url`: path with leading
slashes stripped, then `?query` and `#fragment` when present. -/
def proxyPathPart (parsed : ParsedUrl) : List Char :=
  let pathPart := parsed.path.dropWhile (fun c => c = '/')
  let pathPart :=
    if parsed.query ≠ [] then pathPart ++ '?' :: parsed.query else pathPart
  if parsed.fragment ≠ [] then pathPart ++ '#' :: parsed.fragment
  else pathPart

/-- The final scheme check of `_build_proxied_url`:
`if not res.startswith(("http://", "https://")): res = f"https://{res}"`. -/
def ensureScheme (res : List Char) : List Char :=
  if ¬ (startsList "http://".data res ∨ startsList "https://".data res) then
    "https://".data ++ res
  else res

/-- Model of `BaseScraper._build_proxied_url`.  `proxyTemplate = []` covers
both `None` and the empty template (both falsy). -/
def build_proxied_url (proxyTemplate targetUrl : List Char) : List Char :=
  if proxyTemplate = [] then targetUrl
  else
    let parsed := pyUrlparse [] targetUrl
    let res := proxyTemplate
    let res :=
      if hasSub "%u".data res then replace2 '%' 'u' (pyQuote targetUrl) res
      else res
    let res :=
      if hasSub "%h".data res then replace2 '%' 'h' parsed.netloc res
      else res
    let res :=
      if hasSub "%p".data res then replace2 '%' 'p' (proxyPathPart parsed) res
      else res
    ensureScheme res

/-- Simultaneous one-pass substitution of the three placeholders, following
the specification's words: every occurrence of `%u`, `%h`, `%p` in the
template replaced by `Q`, `N`, `P` respectively, all other text (including
other `%`-placeholders) left verbatim. -/
def substAll (Q N P : List Char) : List Char → List Char
  | [] => []
  | [c] => [c]
  | c :: d :: r =>
    if c = '%' ∧ d = 'u' then Q ++ substAll Q N P r
    else if c = '%' ∧ d = 'h' then N ++ substAll Q N P r
    else if c = '%' ∧ d = 'p' then P ++ substAll Q N P r
    else c :: substAll Q N P (d :: r)

/-- Specification-side proxied-URL builder (`Modelled from the spec`'s
placeholder description): one simultaneous substitution pass over the
template, then prepend `https://` when the result lacks a scheme. -/
def spec_proxied_url (proxyTemplate targetUrl : List Char) : List Char :=
  if proxyTemplate = [] then targetUrl
  else
    let parsed := pyUrlparse [] targetUrl
    ensureScheme
      (substAll (pyQuote targetUrl) parsed.netloc (proxyPathPart parsed)
        proxyTemplate)

/-! ## Absolute URLs and figure extraction (`base.py` lines 345-355,
`acm.py` lines 263-305, `ieee.py` lines 290-321) -/

/-- Model of `BaseScraper._make_absolute_url`. -/
def make_absolute_url (base rel : List Char) : List Char :=
  if rel = [] then []
  else if startsList "http://".data rel ∨ startsList "https://".data rel ∨
      startsList "//".data rel then
    if startsList "//".data rel then "https:".data ++ rel else rel
  else urljoin base rel

/-- The source attributes of an `img` element, each defaulting to `""`
(`attrib.get(x, "")`). -/
structure ImgNode where
  dataViewerSrc : List Char := []
  src : List Char := []
  dataSrc : List Char := []
deriving DecidableEq

/-- Model of `ACMScraper._extract_figure`.  The element's queried parts are
inputs: the first matching `img` (or `none`), the caption element's text,
the `figure[id]` id attribute, the `.core-label` text, and the result of the
`_download_image` call on the absolutized URL. -/
def acm_extract_figure (baseUrl : List Char) (img : Option ImgNode)
    (captionText : Option (List Char)) (figIdAttr : Option (List Char))
    (labelText : Option (List Char)) (downloadedPath : List Char) :
    Option Figure :=
  match img with
  | none => none
  | some im =>
    let src := if im.dataViewerSrc ≠ [] then im.dataViewerSrc else im.src
    if src = [] then none
    else
      let absUrl := make_absolute_url baseUrl src
      let caption := match captionText with
        | some t => cleanText t
        | none => []
      let figId := match figIdAttr with
        | some i => i
        | none => []
      let label := match labelText with
        | some t => cleanText t
        | none => []
      let caption :=
        if label ≠ [] ∧ caption ≠ [] then label ++ ' ' :: caption
        else if label ≠ [] then label
        else caption
      some ⟨absUrl, downloadedPath, caption, figId⟩

/-- Model of `IEEEScraper._extract_figure`: same shape, with
`src = img.attrib.get("src", "") or img.attrib.get("data-src", "")`, the
caption from the first caption-like element, and the element's own `id`. -/
def ieee_extract_figure (baseUrl : List Char) (img : Option ImgNode)
    (captionText : Option (List Char)) (elemId : List Char)
    (downloadedPath : List Char) : Option Figure :=
  match img with
  | none => none
  | some im =>
    let src := if im.src ≠ [] then im.src else im.dataSrc
    if src = [] then none
    else
      let absUrl := make_absolute_url baseUrl src
      let caption := match captionText with
        | some t => cleanText t
        | none => []
      some ⟨absUrl, downloadedPath, caption, elemId⟩

/-! ## Helper lemmas -/

theorem pyStrip_length_le (l : List Char) : (pyStrip l).length ≤ l.length := by
  unfold pyStrip
  calc ((l.dropWhile isWS).reverse.dropWhile isWS).reverse.length
      = ((l.dropWhile isWS).reverse.dropWhile isWS).length := by
        exact List.length_reverse _
    _ ≤ (l.dropWhile isWS).reverse.length :=
        (List.dropWhile_sublist _).length_le
    _ = (l.dropWhile isWS).length := List.length_reverse _
    _ ≤ l.length := (List.dropWhile_sublist _).length_le

theorem pyStrip_subset (l : List Char) : pyStrip l ⊆ l := by
  unfold pyStrip
  intro c hc
  rw [List.mem_reverse] at hc
  have h1 := (List.dropWhile_sublist (l := (l.dropWhile isWS).reverse)
    (p := isWS)).subset hc
  rw [List.mem_reverse] at h1
  exact (List.dropWhile_sublist (l := l) (p := isWS)).subset h1

/-! ## C1: fallback "Abstract" section -/

/-- C1: for both the ACM and IEEE engines, if after all section-discovery
strategies the extracted sections list is empty and the abstract is a
non-empty string, the paper's sections become exactly one
`Section("Abstract", level 2, [abstract])`; if any section was discovered,
the sections are left unchanged and no such section is synthesized. -/
theorem claim_C1_abstract_fallback (secs : List Section) (abstract : List Char) :
    (secs = [] → abstract ≠ [] →
      acm_finalize_sections secs abstract =
          [⟨"Abstract".data, 2, [ContentBlock.text abstract]⟩] ∧
        ieee_finalize_sections secs abstract =
          [⟨"Abstract".data, 2, [ContentBlock.text abstract]⟩]) ∧
    (secs ≠ [] →
      acm_finalize_sections secs abstract = secs ∧
        ieee_finalize_sections secs abstract = secs) := by
  constructor
  · intro h1 h2
    constructor <;> simp [acm_finalize_sections, ieee_finalize_sections, h1, h2]
  · intro h1
    constructor <;> simp [acm_finalize_sections, ieee_finalize_sections, h1]

/-- Witness for C1 at a concrete scrape state: no discovered sections and a
non-empty abstract on one side, a discovered section on the other. -/
theorem claim_C1_abstract_fallback_witness :
    (acm_finalize_sections [] "An abstract.".data =
        [⟨"Abstract".data, 2, [ContentBlock.text "An abstract.".data]⟩] ∧
      ieee_finalize_sections [] "An abstract.".data =
        [⟨"Abstract".data, 2, [ContentBlock.text "An abstract.".data]⟩]) ∧
    (acm_finalize_sections [⟨"Intro".data, 2, []⟩] "An abstract.".data =
        [⟨"Intro".data, 2, []⟩] ∧
      ieee_finalize_sections [⟨"Intro".data, 2, []⟩] "An abstract.".data =
        [⟨"Intro".data, 2, []⟩]) :=
  ⟨(claim_C1_abstract_fallback [] "An abstract.".data).1 rfl (by decide),
    (claim_C1_abstract_fallback [⟨"Intro".data, 2, []⟩] "An abstract.".data).2
      (by decide)⟩

/-! ## C7: cookie normalization -/

/-- C7: `_convert_cookies_for_cdp` maps `sameSite` case-insensitively
(`no_restriction`/`lax`/`strict` to `None`/`Lax`/`Strict`, any other
non-empty value to `Lax`), renames truthy `expirationDate` to `expires`,
and therefore two raw records that differ only in the letter case of
`sameSite` normalize identically; the list conversion applies this
per-record conversion elementwise. -/
theorem claim_C7_cookie_normalization (raw : RawCookie) :
    (∀ s, raw.sameSite = some s → s ≠ [] →
      ((lowerStr s = "no_restriction".data →
          (convert_cookie raw).sameSite = some "None".data) ∧
        (lowerStr s = "lax".data →
          (convert_cookie raw).sameSite = some "Lax".data) ∧
        (lowerStr s = "strict".data →
          (convert_cookie raw).sameSite = some "Strict".data) ∧
        (lowerStr s ≠ "no_restriction".data → lowerStr s ≠ "lax".data →
          lowerStr s ≠ "strict".data →
          (convert_cookie raw).sameSite = some "Lax".data))) ∧
    (∀ e, raw.expirationDate = some e → e ≠ 0 →
      (convert_cookie raw).expires = some e) ∧
    (∀ raw2 : RawCookie, raw2.name = raw.name → raw2.value = raw.value →
      raw2.domain = raw.domain → raw2.path = raw.path →
      raw2.secure = raw.secure → raw2.httpOnly = raw.httpOnly →
      raw2.expirationDate = raw.expirationDate →
      Option.map lowerStr raw2.sameSite = Option.map lowerStr raw.sameSite →
      convert_cookie raw2 = convert_cookie raw) ∧
    (∀ rest : List RawCookie,
      convert_cookies_for_cdp (raw :: rest) =
        convert_cookie raw :: convert_cookies_for_cdp rest) := by
  refine ⟨?_, ?_, ?_, fun rest => rfl⟩
  · intro s hs hne
    refine ⟨?_, ?_, ?_, ?_⟩ <;>
      · intros
        simp only [convert_cookie, hs, if_pos hne]
        simp only [sameSiteMap, *]
        simp_all
  · intro e he hne
    simp [convert_cookie, he, hne]
  · intro raw2 h1 h2 h3 h4 h5 h6 h7 h8
    have hlen : ∀ a b : List Char, lowerStr a = lowerStr b →
        (a ≠ [] ↔ b ≠ []) := by
      intro a b hab
      constructor <;> intro h hx <;> subst hx <;>
        simp [lowerStr] at hab <;> simp [hab] at h
    simp only [convert_cookie, h1, h2, h3, h4, h5, h6, h7]
    congr 1
    cases hx : raw2.sameSite with
    | none =>
      rw [hx] at h8
      cases hy : raw.sameSite with
      | none => rfl
      | some t => rw [hy] at h8; simp at h8
    | some s =>
      rw [hx] at h8
      cases hy : raw.sameSite with
      | none => rw [hy] at h8; simp at h8
      | some t =>
        rw [hy] at h8
        simp only [Option.map, Option.some.injEq] at h8
        have hiff := hlen s t h8
        by_cases hcase : t = []
        · simp [hcase, (by simp [hcase] at hiff ⊢; tauto : s = [])]
        · have hsne : s ≠ [] := hiff.2 hcase
          simp [hcase, hsne, h8]

/-- Witness for C7: two concrete records differing only in `sameSite` case
(`"Lax"` vs `"lax"`) convert identically, and the table maps a concrete
`"no_restriction"` record to `"None"`. -/
theorem claim_C7_cookie_normalization_witness :
    convert_cookie ⟨"sid".data, "v1".data, some "dl.acm.org".data, none,
        some true, none, some 1700000000, some "Lax".data⟩ =
      convert_cookie ⟨"sid".data, "v1".data, some "dl.acm.org".data, none,
        some true, none, some 1700000000, some "lax".data⟩ ∧
    (convert_cookie ⟨"sid".data, "v1".data, none, none, none, none, none,
        some "no_restriction".data⟩).sameSite = some "None".data :=
  ⟨(claim_C7_cookie_normalization
      ⟨"sid".data, "v1".data, some "dl.acm.org".data, none, some true, none,
        some 1700000000, some "lax".data⟩).2.2.1
      ⟨"sid".data, "v1".data, some "dl.acm.org".data, none, some true, none,
        some 1700000000, some "Lax".data⟩
      rfl rfl rfl rfl rfl rfl rfl (by decide),
    ((claim_C7_cookie_normalization
      ⟨"sid".data, "v1".data, none, none, none, none, none,
        some "no_restriction".data⟩).1 "no_restriction".data rfl
      (by decide)).1 (by decide)⟩

/-! ## C9: cookie save on every exit path -/

/-- C9: once the browser session is open with a truthy `cookies_file`, the
cookie-save step runs on every exit path of `_browser_tab` (normal
completion and raised exceptions alike), `_save_cookies` swallows every
failure of the cookie read or write, and the scope's outcome is always the
body's outcome — a cookie-save failure never aborts the scrape. -/
theorem claim_C9_cookie_save_guaranteed {α : Type} (cookiesFile : List Char)
    (hcf : cookiesFile ≠ []) (body : PyResult α)
    (getCookies : PyResult (List RawCookie))
    (writeFile : List RawCookie → PyResult Unit) :
    (browser_tab_run (some cookiesFile) body getCookies writeFile).2 = true ∧
    (browser_tab_run (some cookiesFile) body getCookies writeFile).1 = body ∧
    save_cookies getCookies writeFile = PyResult.ok () := by
  have hsave : save_cookies getCookies writeFile = PyResult.ok () := by
    unfold save_cookies
    cases getCookies with
    | exn e => rfl
    | ok cs =>
      by_cases h : cs = []
      · simp [h]
      · simp only [h, ne_eq, not_false_eq_true, if_true]
        cases writeFile cs <;> rfl
  refine ⟨?_, ?_, hsave⟩ <;>
    simp [browser_tab_run, hcf, hsave, tryFinallyR]

/-- Witness for C9: a concrete session whose body raises and whose cookie
write also raises; the save still runs, the body's exception is preserved,
and the save reports success. -/
theorem claim_C9_cookie_save_guaranteed_witness :
    (browser_tab_run (some "cookies.json".data) (PyResult.exn 7 : PyResult Nat)
        (PyResult.ok [⟨"sid".data, "v".data, none, none, none, none, none,
          none⟩])
        (fun _ => PyResult.exn 13)).2 = true ∧
    (browser_tab_run (some "cookies.json".data) (PyResult.exn 7 : PyResult Nat)
        (PyResult.ok [⟨"sid".data, "v".data, none, none, none, none, none,
          none⟩])
        (fun _ => PyResult.exn 13)).1 = PyResult.exn 7 ∧
    save_cookies
        (PyResult.ok [⟨"sid".data, "v".data, none, none, none, none, none,
          none⟩])
        (fun _ => PyResult.exn 13) = PyResult.ok () :=
  claim_C9_cookie_save_guaranteed "cookies.json".data (by decide)
    (PyResult.exn 7)
    (PyResult.ok [⟨"sid".data, "v".data, none, none, none, none, none, none⟩])
    (fun _ => PyResult.exn 13)

/-! ## C10: empty and data: URLs short-circuit the image download -/

/-- C10: `_download_image` with an empty URL or a `data:` URL returns the
empty path immediately: no file write, no directory creation, and no
in-browser fetch. -/
theorem claim_C10_download_image_early_return
    (md5hex : List Char → List Char) (tabPresent : Bool)
    (url outputDir : List Char) (fs : FileSystem) (fetch : FetchOutcome)
    (h : url = [] ∨ startsList "data:".data url = true) :
    download_image md5hex tabPresent url outputDir fs fetch =
      ⟨[], fs, false, false⟩ := by
  unfold download_image
  rcases h with h | h <;> simp [h]

/-- Witness for C10 at the concrete URL `data:image/png;base64,AAAA` on a
non-trivial file system. -/
theorem claim_C10_download_image_early_return_witness :
    download_image (fun _ => "0123456789abcdef".data) true
        "data:image/png;base64,AAAA".data "out".data
        ⟨["out/images/fig_x.png".data], ["out".data]⟩ .noData =
      ⟨[], ⟨["out/images/fig_x.png".data], ["out".data]⟩, false, false⟩ :=
  claim_C10_download_image_early_return _ _ _ _ _ _ (Or.inr (by decide))

/-! ## C5: image download is idempotent per URL and output directory -/

/-- C5: the destination filename of `_download_image` is a deterministic
function of the URL alone (`fig_` plus the hash-derived name plus the URL's
extension), so whenever a first call succeeded (returned a non-empty path),
a second call with the same URL and output directory finds the destination
file, returns the same relative `images/<name>` path, performs no
in-browser fetch, and leaves the file system unchanged. -/
theorem claim_C5_download_image_idempotent (md5hex : List Char → List Char)
    (tab1 tab2 : Bool) (url outputDir : List Char) (fs : FileSystem)
    (fetch1 fetch2 : FetchOutcome)
    (hok : (download_image md5hex tab1 url outputDir fs fetch1).path ≠ []) :
    (download_image md5hex tab1 url outputDir fs fetch1).path =
      "images/".data ++ fig_filename md5hex url ∧
    download_image md5hex tab2 url outputDir
        (download_image md5hex tab1 url outputDir fs fetch1).fs fetch2 =
      ⟨(download_image md5hex tab1 url outputDir fs fetch1).path,
        (download_image md5hex tab1 url outputDir fs fetch1).fs, true,
        false⟩ := by
  by_cases hearly : url = [] ∨ startsList "data:".data url = true
  · exfalso
    apply hok
    unfold download_image
    rcases hearly with h | h <;> simp [h]
  · have hmk : ∀ g : FileSystem, imagesDirOf outputDir ∈ (mkdirFS g outputDir).dirs := by
      intro g
      unfold mkdirFS
      by_cases h : imagesDirOf outputDir ∈ g.dirs <;> simp [h]
    have hmkmem : ∀ g : FileSystem, imagesDirOf outputDir ∈ g.dirs →
        mkdirFS g outputDir = g := by
      intro g hg
      unfold mkdirFS
      rw [if_pos hg]
    have hsecond : ∀ g : FileSystem,
        destOf md5hex url outputDir ∈ g.files →
        imagesDirOf outputDir ∈ g.dirs →
        download_image md5hex tab2 url outputDir g fetch2 =
          ⟨"images/".data ++ fig_filename md5hex url, g, true, false⟩ := by
      intro g hgf hgd
      unfold download_image
      rw [if_neg hearly, hmkmem g hgd, if_pos hgf]
    -- analyze the first call
    by_cases hd : destOf md5hex url outputDir ∈ (mkdirFS fs outputDir).files
    · have hr1 : download_image md5hex tab1 url outputDir fs fetch1 =
          ⟨"images/".data ++ fig_filename md5hex url, mkdirFS fs outputDir,
            true, false⟩ := by
        unfold download_image
        rw [if_neg hearly, if_pos hd]
      rw [hr1]
      exact ⟨rfl, hsecond _ hd (hmk fs)⟩
    · by_cases ht : tab1 = false
      · exfalso
        apply hok
        unfold download_image
        rw [if_neg hearly, if_neg hd, if_pos ht]
      · cases fetch1 with
        | success b =>
          have hr1 : download_image md5hex tab1 url outputDir fs
                (FetchOutcome.success b) =
              ⟨"images/".data ++ fig_filename md5hex url,
                ⟨destOf md5hex url outputDir :: (mkdirFS fs outputDir).files,
                  (mkdirFS fs outputDir).dirs⟩, true, true⟩ := by
            unfold download_image
            rw [if_neg hearly, if_neg hd, if_neg ht]
          rw [hr1]
          exact ⟨rfl, hsecond _ (List.mem_cons_self _ _) (hmk fs)⟩
        | noData =>
          exfalso
          apply hok
          unfold download_image
          rw [if_neg hearly, if_neg hd, if_neg ht]
        | failure =>
          exfalso
          apply hok
          unfold download_image
          rw [if_neg hearly, if_neg hd, if_neg ht]

/-- Witness for C5: a concrete first call that fetches successfully, then a
second call that returns the same path without fetching. -/
theorem claim_C5_download_image_idempotent_witness :
    (download_image (fun _ => "abcdef0123456789".data) true
        "https://dl.acm.org/fig1.png".data "out".data ⟨[], []⟩
        (.success "AAAA".data)).path =
      "images/".data ++
        fig_filename (fun _ => "abcdef0123456789".data)
          "https://dl.acm.org/fig1.png".data ∧
    download_image (fun _ => "abcdef0123456789".data) true
        "https://dl.acm.org/fig1.png".data "out".data
        (download_image (fun _ => "abcdef0123456789".data) true
          "https://dl.acm.org/fig1.png".data "out".data ⟨[], []⟩
          (.success "AAAA".data)).fs
        (.success "BBBB".data) =
      ⟨(download_image (fun _ => "abcdef0123456789".data) true
          "https://dl.acm.org/fig1.png".data "out".data ⟨[], []⟩
          (.success "AAAA".data)).path,
        (download_image (fun _ => "abcdef0123456789".data) true
          "https://dl.acm.org/fig1.png".data "out".data ⟨[], []⟩
          (.success "AAAA".data)).fs, true, false⟩ :=
  claim_C5_download_image_idempotent (fun _ => "abcdef0123456789".data)
    true true "https://dl.acm.org/fig1.png".data "out".data ⟨[], []⟩
    (.success "AAAA".data) (.success "BBBB".data) (by decide)

/-! ## C8: filename sanitization in `save_paper` -/

/-- C8: the filename derived by `save_paper` keeps exactly the characters
that are alphanumeric, space, hyphen or underscore (every other character
is replaced by `_`), its stem is at most 80 characters, it is never empty,
and when the sanitized title is empty it defaults to `paper.md`. -/
theorem claim_C8_save_paper_filename (title : List Char) :
    (∃ stem, save_paper_filename title = stem ++ ".md".data ∧ stem ≠ [] ∧
      stem.length ≤ 80 ∧ ∀ c ∈ stem, allowedFnChar c = true) ∧
    (sanitize_title title = [] →
      save_paper_filename title = "paper.md".data) := by
  constructor
  · by_cases h : sanitize_title title = []
    · exact ⟨"paper".data, by simp [save_paper_filename, h], by decide,
        by decide, by decide⟩
    · refine ⟨sanitize_title title, by simp [save_paper_filename, h], h, ?_,
        ?_⟩
      · calc (sanitize_title title).length
            ≤ ((title.map
                (fun c => if allowedFnChar c then c else '_')).take 80).length :=
              pyStrip_length_le _
          _ ≤ 80 := by simp
      · intro c hc
        have hgen : ∀ d : Char,
            allowedFnChar (if allowedFnChar d then d else '_') = true := by
          intro d
          split
          · assumption
          · decide
        have hc2 := pyStrip_subset _ hc
        have hc3 : c ∈ title.map (fun x => if allowedFnChar x then x else '_') :=
          List.take_subset _ _ hc2
        rw [List.mem_map] at hc3
        obtain ⟨d, _hd, rfl⟩ := hc3
        exact hgen d
  · intro h
    simp [save_paper_filename, h]

/-- Witness for C8: the title `"A: Very/Weird*Title??"` yields a non-empty
allow-listed filename, and an all-space title falls back to `paper.md`. -/
theorem claim_C8_save_paper_filename_witness :
    (∃ stem, save_paper_filename "A: Very/Weird*Title??".data =
        stem ++ ".md".data ∧ stem ≠ [] ∧ stem.length ≤ 80 ∧
        ∀ c ∈ stem, allowedFnChar c = true) ∧
    save_paper_filename "   ".data = "paper.md".data :=
  ⟨(claim_C8_save_paper_filename "A: Very/Weird*Title??".data).1,
    (claim_C8_save_paper_filename "   ".data).2 (by decide)⟩

/-! ## C4: keyword de-duplication -/

theorem firstOccur_filter (p : List Char → Bool) (l : List (List Char)) :
    firstOccur (l.filter p) = (firstOccur l).filter p := by
  induction l with
  | nil => rfl
  | cons x r ih =>
    simp only [List.filter_cons]
    by_cases hx : p x = true
    · rw [if_pos hx]
      simp only [firstOccur, ih, List.filter_cons, hx, if_true,
        List.filter_filter]
      have hfun : (fun a : List Char => decide (a ≠ x) && p a) =
          (fun a : List Char => p a && decide (a ≠ x)) := by
        funext a
        rw [Bool.and_comm]
      rw [hfun]
    · rw [if_neg hx]
      simp only [firstOccur, ih, List.filter_cons, hx, Bool.false_eq_true,
        if_false, List.filter_filter]
      have hfun : (fun a : List Char => p a && decide (a ≠ x)) = p := by
        funext a
        by_cases ha : a = x
        · subst ha
          simp [hx]
        · simp [ha]
      rw [hfun]

theorem pyDedupGo_eq (l : List (List Char)) : ∀ seen : List (List Char),
    pyDedupGo seen l = firstOccur (l.filter (fun x => x ∉ seen)) := by
  induction l with
  | nil => intro seen; rfl
  | cons x r ih =>
    intro seen
    by_cases hx : x ∈ seen
    · rw [show pyDedupGo seen (x :: r) = pyDedupGo seen r from by
        simp [pyDedupGo, hx]]
      rw [ih seen]
      congr 1
      simp [List.filter_cons, hx]
    · rw [show pyDedupGo seen (x :: r) = x :: pyDedupGo (x :: seen) r from by
        simp [pyDedupGo, hx]]
      rw [ih (x :: seen)]
      have hfilters : r.filter (fun y => y ∉ x :: seen) =
          (r.filter (fun y => y ∉ seen)).filter (fun y => y ≠ x) := by
        rw [List.filter_filter]
        congr 1
        funext a
        by_cases ha : a = x
        · subst ha
          simp
        · by_cases hs : a ∈ seen <;> simp [ha, hs]
      rw [hfilters, firstOccur_filter]
      have hxkeep : firstOccur ((x :: r).filter (fun y => y ∉ seen)) =
          x :: (firstOccur (r.filter (fun y => y ∉ seen))).filter
            (fun y => y ≠ x) := by
        rw [List.filter_cons, if_pos (by simp [hx])]
        rfl
      rw [hxkeep]

theorem pyDedup_eq_firstOccur (l : List (List Char)) :
    pyDedup l = firstOccur l := by
  unfold pyDedup
  rw [pyDedupGo_eq]
  congr 1
  induction l with
  | nil => rfl
  | cons x r ih => simp [List.filter_cons, ih]

theorem firstOccur_nodup (l : List (List Char)) : (firstOccur l).Nodup := by
  induction l with
  | nil => exact List.nodup_nil
  | cons x r ih =>
    simp only [firstOccur]
    rw [List.nodup_cons]
    refine ⟨?_, ih.filter _⟩
    intro hmem
    have := List.of_mem_filter hmem
    simp at this

theorem firstOccur_sublist (l : List (List Char)) :
    List.Sublist (firstOccur l) l := by
  induction l with
  | nil => exact List.Sublist.refl []
  | cons x r ih =>
    simp only [firstOccur]
    exact List.Sublist.cons₂ x ((List.filter_sublist _).trans ih)

theorem mem_firstOccur (y : List Char) (l : List (List Char)) :
    y ∈ firstOccur l ↔ y ∈ l := by
  induction l with
  | nil => simp [firstOccur]
  | cons x r ih =>
    by_cases hy : y = x
    · subst hy
      simp [firstOccur]
    · simp [firstOccur, hy, List.mem_filter, ih]

/-- C4 counterexample: the ACM engine does not de-duplicate keywords — a
`#sec-terms` section whose links repeat the same text yields a keywords
list with a duplicate, refuting the claim that for every scrape of both
engines the keywords sequence contains no duplicate string. -/
theorem claim_C4_keywords_counterexample :
    acm_keywords (some ["deep learning".data, "deep learning".data]) =
      ["deep learning".data, "deep learning".data] ∧
    ¬ (acm_keywords
        (some ["deep learning".data, "deep learning".data])).Nodup := by
  constructor
  · decide
  · decide

/-- C4 (amended): the IEEE engine's keywords contain no duplicate string
and retain the cleaned keyword texts in order of first occurrence (the
result is the first-occurrence de-duplication of the cleaned sequence and
a sublist of it); the ACM engine keeps every cleaned non-empty keyword
text in document order without de-duplicating. -/
theorem claim_C4_keywords_dedup_amended (texts links : List (List Char)) :
    (ieee_keywords texts).Nodup ∧
    ieee_keywords texts =
      firstOccur ((texts.filter (fun t => t ≠ [])).map cleanText) ∧
    List.Sublist (ieee_keywords texts)
      ((texts.filter (fun t => t ≠ [])).map cleanText) ∧
    acm_keywords (some links) =
      (links.filter (fun t => t ≠ [] ∧ cleanText t ≠ [])).map cleanText := by
  have heq : ieee_keywords texts =
      firstOccur ((texts.filter (fun t => t ≠ [])).map cleanText) := by
    unfold ieee_keywords
    exact pyDedup_eq_firstOccur _
  refine ⟨?_, heq, ?_, rfl⟩
  · rw [heq]
    exact firstOccur_nodup _
  · rw [heq]
    exact firstOccur_sublist _

/-! ## C6: constructed figures always carry a non-empty remote URL -/

theorem urlunsplit_ne (scheme netloc path query fragment : List Char)
    (h : scheme ≠ []) : urlunsplit scheme netloc path query fragment ≠ [] := by
  unfold urlunsplit
  by_cases hq : query = [] <;> by_cases hf : fragment = [] <;>
    simp [h, hq, hf]

theorem urlunparse_ne (scheme netloc path params query fragment : List Char)
    (h : scheme ≠ []) :
    urlunparse scheme netloc path params query fragment ≠ [] := by
  unfold urlunparse
  exact urlunsplit_ne _ _ _ _ _ h

theorem pyUrlparse_scheme (dflt url : List Char) :
    (pyUrlparse dflt url).scheme = (urlsplit dflt url).scheme := by
  unfold pyUrlparse
  dsimp only
  split <;> rfl

theorem urljoin_ne (base url : List Char)
    (hb : (pyUrlparse [] base).scheme ≠ []) (hu : url ≠ []) :
    urljoin base url ≠ [] := by
  unfold urljoin
  split
  next hbase => exact hu
  next hbase =>
    dsimp only
    split
    next hscheme => exact hu
    next hscheme =>
      push_neg at hscheme
      have hs : (pyUrlparse (pyUrlparse [] base).scheme url).scheme ≠ [] := by
        rw [hscheme.1]
        exact hb
      split
      next hnet => exact urlunparse_ne _ _ _ _ _ _ hs
      next hnet =>
        split
        next hpe => exact urlunparse_ne _ _ _ _ _ _ hs
        next hpe => exact urlunparse_ne _ _ _ _ _ _ hs

theorem urlsplit_scheme_https (r : List Char) :
    (urlsplit [] ("https://".data ++ r)).scheme = "https".data := by
  have hdw : ("https://".data ++ r).dropWhile c0OrSpace =
      "https://".data ++ r := by
    show ('h' :: ("ttps://".data ++ r)).dropWhile c0OrSpace =
      'h' :: ("ttps://".data ++ r)
    rw [List.dropWhile_cons, if_neg (by decide)]
  have hru : removeUnsafe ("https://".data ++ r) =
      "https://".data ++ removeUnsafe r := by
    unfold removeUnsafe
    rw [List.filter_append]
    congr 1
  have hidx : idxOfCh ':' ("https://".data ++ removeUnsafe r) = some 5 := by
    show idxOfCh ':'
      ('h' :: 't' :: 't' :: 'p' :: 's' :: ':' :: '/' :: '/' :: removeUnsafe r) = some 5
    simp [idxOfCh]
  have htake : ("https://".data ++ removeUnsafe r).take 5 = "https".data := by
    show ("https".data ++ (':' :: '/' :: '/' :: removeUnsafe r)).take
      "https".data.length = "https".data
    exact List.take_left _ _
  unfold urlsplit
  dsimp only
  rw [hdw, hru, hidx]
  dsimp only
  rw [htake, if_pos (by constructor <;> decide)]
  rfl

theorem urlsplit_scheme_http (r : List Char) :
    (urlsplit [] ("http://".data ++ r)).scheme = "http".data := by
  have hdw : ("http://".data ++ r).dropWhile c0OrSpace =
      "http://".data ++ r := by
    show ('h' :: ("ttp://".data ++ r)).dropWhile c0OrSpace =
      'h' :: ("ttp://".data ++ r)
    rw [List.dropWhile_cons, if_neg (by decide)]
  have hru : removeUnsafe ("http://".data ++ r) =
      "http://".data ++ removeUnsafe r := by
    unfold removeUnsafe
    rw [List.filter_append]
    congr 1
  have hidx : idxOfCh ':' ("http://".data ++ removeUnsafe r) = some 4 := by
    show idxOfCh ':'
      ('h' :: 't' :: 't' :: 'p' :: ':' :: '/' :: '/' :: removeUnsafe r) = some 4
    simp [idxOfCh]
  have htake : ("http://".data ++ removeUnsafe r).take 4 = "http".data := by
    show ("http".data ++ (':' :: '/' :: '/' :: removeUnsafe r)).take
      "http".data.length = "http".data
    exact List.take_left _ _
  unfold urlsplit
  dsimp only
  rw [hdw, hru, hidx]
  dsimp only
  rw [htake, if_pos (by constructor <;> decide)]
  rfl

theorem base_scheme_ne (base : List Char)
    (hb : (∃ r, base = "http://".data ++ r) ∨
      (∃ r, base = "https://".data ++ r)) :
    (pyUrlparse [] base).scheme ≠ [] := by
  rw [pyUrlparse_scheme]
  rcases hb with ⟨r, rfl⟩ | ⟨r, rfl⟩
  · rw [urlsplit_scheme_http]
    decide
  · rw [urlsplit_scheme_https]
    decide

theorem make_absolute_url_ne (base rel : List Char)
    (hb : (pyUrlparse [] base).scheme ≠ []) (hr : rel ≠ []) :
    make_absolute_url base rel ≠ [] := by
  unfold make_absolute_url
  rw [if_neg hr]
  split
  next hstart =>
    split
    next => simp
    next => exact hr
  next hstart => exact urljoin_ne base rel hb hr

/-- C6: every `Figure` constructed by figure extraction (ACM or IEEE) has a
non-empty remote URL: a figure element with no image descendant, or whose
image has no usable source attribute, yields no `Figure` at all, and a
constructed `Figure`'s `url` is never empty (the page base URL being an
`http(s)://` URL, as the scrapers' landing URLs are). -/
theorem claim_C6_figure_url_nonempty (base : List Char) (img : Option ImgNode)
    (cap : Option (List Char)) (figId : Option (List Char))
    (lab : Option (List Char)) (elemId dl : List Char)
    (hb : (∃ r, base = "http://".data ++ r) ∨
      (∃ r, base = "https://".data ++ r)) :
    (∀ f, acm_extract_figure base img cap figId lab dl = some f →
      f.url ≠ []) ∧
    (∀ f, ieee_extract_figure base img cap elemId dl = some f →
      f.url ≠ []) ∧
    acm_extract_figure base none cap figId lab dl = none ∧
    ieee_extract_figure base none cap elemId dl = none ∧
    (∀ im : ImgNode, im.dataViewerSrc = [] → im.src = [] →
      acm_extract_figure base (some im) cap figId lab dl = none) ∧
    (∀ im : ImgNode, im.src = [] → im.dataSrc = [] →
      ieee_extract_figure base (some im) cap elemId dl = none) := by
  have hscheme := base_scheme_ne base hb
  refine ⟨?_, ?_, rfl, rfl, ?_, ?_⟩
  · intro f hf
    unfold acm_extract_figure at hf
    cases img with
    | none => exact absurd hf (by simp)
    | some im =>
      dsimp only at hf
      by_cases hsrc :
          (if im.dataViewerSrc ≠ [] then im.dataViewerSrc else im.src) = []
      · rw [if_pos hsrc] at hf
        exact absurd hf (by simp)
      · rw [if_neg hsrc] at hf
        have h2 := Option.some.inj hf
        rw [← h2]
        exact make_absolute_url_ne base _ hscheme hsrc
  · intro f hf
    unfold ieee_extract_figure at hf
    cases img with
    | none => exact absurd hf (by simp)
    | some im =>
      dsimp only at hf
      by_cases hsrc : (if im.src ≠ [] then im.src else im.dataSrc) = []
      · rw [if_pos hsrc] at hf
        exact absurd hf (by simp)
      · rw [if_neg hsrc] at hf
        have h2 := Option.some.inj hf
        rw [← h2]
        exact make_absolute_url_ne base _ hscheme hsrc
  · intro im h1 h2
    unfold acm_extract_figure
    dsimp only
    simp [h1, h2]
  · intro im h1 h2
    unfold ieee_extract_figure
    dsimp only
    simp [h1, h2]

/-- Witness for C6: a concrete ACM figure element on the real landing base
URL yields a figure whose remote URL is non-empty, and an image-less
element yields no figure. -/
theorem claim_C6_figure_url_nonempty_witness :
    (∀ f, acm_extract_figure "https://dl.acm.org/doi/10.1145/1".data
        (some ⟨"/cms/fig1.jpg".data, [], []⟩) (some "A caption".data)
        (some "fig1".data) (some "Figure 1:".data) [] = some f →
      f.url ≠ []) ∧
    acm_extract_figure "https://dl.acm.org/doi/10.1145/1".data none
      (some "A caption".data) (some "fig1".data) (some "Figure 1:".data) [] =
      none :=
  ⟨(claim_C6_figure_url_nonempty "https://dl.acm.org/doi/10.1145/1".data
      (some ⟨"/cms/fig1.jpg".data, [], []⟩) (some "A caption".data)
      (some "fig1".data) (some "Figure 1:".data) [] []
      (Or.inr ⟨"dl.acm.org/doi/10.1145/1".data, by decide⟩)).1,
    (claim_C6_figure_url_nonempty "https://dl.acm.org/doi/10.1145/1".data
      none (some "A caption".data) (some "fig1".data)
      (some "Figure 1:".data) [] []
      (Or.inr ⟨"dl.acm.org/doi/10.1145/1".data, by decide⟩)).2.2.1⟩

/-! ## C2: DOI extraction -/

theorem takeWhile_append_all (p : Char → Bool) (a b : List Char)
    (h : ∀ c ∈ a, p c = true) :
    (a ++ b).takeWhile p = a ++ b.takeWhile p := by
  induction a with
  | nil => rfl
  | cons x r ih =>
    rw [List.cons_append, List.takeWhile_cons,
      if_pos (h x (List.mem_cons_self x r)),
      ih (fun c hc => h c (List.mem_cons_of_mem x hc)), List.cons_append]

theorem take_len_takeWhile (p : Char → Bool) (l : List Char) :
    l.take (l.takeWhile p).length = l.takeWhile p := by
  induction l with
  | nil => rfl
  | cons x r ih =>
    rw [List.takeWhile_cons]
    by_cases h : p x = true
    · rw [if_pos h]
      simp only [List.length_cons, List.take_succ_cons, ih]
    · rw [if_neg h]
      rfl

theorem drop_len_takeWhile (p : Char → Bool) (l : List Char) :
    l.drop (l.takeWhile p).length = l.dropWhile p := by
  induction l with
  | nil => rfl
  | cons x r ih =>
    rw [List.takeWhile_cons, List.dropWhile_cons]
    by_cases h : p x = true
    · rw [if_pos h, if_pos h]
      simp only [List.length_cons, List.drop_succ_cons, ih]
    · rw [if_neg h, if_neg h]
      rfl

theorem ws_not_dig (c : Char) (h : isWS c = true) : isDig c = false := by
  unfold isWS Char.isWhitespace at h
  simp only [Bool.or_eq_true, decide_eq_true_eq] at h
  rcases h with ((h | h) | h) | h <;> subst h <;> decide

theorem dig_not_ws (c : Char) (h : isDig c = true) : isWS c = false := by
  cases hw : isWS c
  · rfl
  · rw [ws_not_dig c hw] at h
    exact absurd h (by simp)

theorem matchAt_sound (l m : List Char) (h : matchAt l = some m) :
    PatMatch m ∧ ∃ suf, l = m ++ suf := by
  cases l with
  | nil => exact absurd h (by simp [matchAt])
  | cons c1 l1 =>
  cases l1 with
  | nil => exact absurd h (by simp [matchAt])
  | cons c2 l2 =>
  cases l2 with
  | nil => exact absurd h (by simp [matchAt])
  | cons c3 r =>
    simp only [matchAt] at h
    by_cases h123 : c1 = '1' ∧ c2 = '0' ∧ c3 = '.'
    case neg =>
      rw [if_neg h123] at h
      exact absurd h (by simp)
    case pos =>
      obtain ⟨rfl, rfl, rfl⟩ := h123
      rw [if_pos ⟨rfl, rfl, rfl⟩] at h
      by_cases hlen : 4 ≤ (r.takeWhile isDig).length ∧
          (r.takeWhile isDig).length ≤ 9
      case neg =>
        rw [if_neg hlen] at h
        exact absurd h (by simp)
      case pos =>
        rw [if_pos hlen] at h
        cases hdrop : r.drop (r.takeWhile isDig).length with
        | nil =>
          rw [hdrop] at h
          exact absurd h (by simp)
        | cons c4 r2 =>
          rw [hdrop] at h
          dsimp only at h
          by_cases hc4 : c4 = '/'
          case neg =>
            rw [if_neg hc4] at h
            exact absurd h (by simp)
          case pos =>
            subst hc4
            rw [if_pos rfl] at h
            by_cases htok : r2.takeWhile (fun c => !isWS c) ≠ []
            case neg =>
              rw [if_neg htok] at h
              exact absurd h (by simp)
            case pos =>
              rw [if_pos htok] at h
              have hm := (Option.some.inj h).symm
              subst hm
              constructor
              · refine ⟨r.takeWhile isDig, r2.takeWhile (fun c => !isWS c),
                  rfl, ?_, hlen.1, hlen.2, htok, ?_⟩
                · intro c hc
                  exact List.mem_takeWhile_imp hc
                · intro c hc
                  have := List.mem_takeWhile_imp hc
                  simpa using this
              · refine ⟨r2.dropWhile (fun c => !isWS c), ?_⟩
                have hr : r = r.takeWhile isDig ++ ('/' :: r2) := by
                  conv_lhs => rw [← List.take_append_drop
                    (r.takeWhile isDig).length r]
                  rw [take_len_takeWhile, hdrop]
                have hr2 : r2 = r2.takeWhile (fun c => !isWS c) ++
                    r2.dropWhile (fun c => !isWS c) := by
                  rw [List.takeWhile_append_dropWhile]
                conv_lhs => rw [hr]
                conv_lhs => rw [hr2]
                simp

theorem matchAt_complete (l m : List Char) (hm : PatMatch m)
    (hpre : ∃ suf, l = m ++ suf) : matchAt l ≠ none := by
  obtain ⟨ds, tok, rfl, hds, h4, h9, htok, hnws⟩ := hm
  obtain ⟨suf, rfl⟩ := hpre
  have hshape : ('1' :: '0' :: '.' :: (ds ++ '/' :: tok)) ++ suf =
      '1' :: '0' :: '.' :: (ds ++ '/' :: (tok ++ suf)) := by simp
  rw [hshape]
  simp only [matchAt]
  rw [if_pos (⟨trivial, trivial, trivial⟩ : True ∧ True ∧ True)]
  have htw : (ds ++ '/' :: (tok ++ suf)).takeWhile isDig = ds := by
    rw [takeWhile_append_all isDig ds _ hds, List.takeWhile_cons,
      if_neg (by decide)]
    simp
  rw [htw, if_pos ⟨h4, h9⟩]
  have hdrop : (ds ++ '/' :: (tok ++ suf)).drop ds.length =
      '/' :: (tok ++ suf) := List.drop_left ds _
  rw [hdrop]
  dsimp only
  rw [if_pos rfl]
  have htw2 : (tok ++ suf).takeWhile (fun c => !isWS c) ≠ [] := by
    cases tok with
    | nil => exact absurd rfl htok
    | cons t ts =>
      rw [List.cons_append, List.takeWhile_cons,
        if_pos (by simpa using hnws t (List.mem_cons_self t ts))]
      simp
  rw [if_pos htw2]
  simp

theorem searchDOI_none (l : List Char) (h : searchDOI l = none) :
    ∀ m, PatMatch m → ¬ OccIn m l := by
  induction l with
  | nil =>
    rintro m hm ⟨pre, suf, heq⟩
    obtain ⟨ds, tok, rfl, _⟩ := hm
    have := heq.symm
    simp [List.append_eq_nil] at this
  | cons c r ih =>
    unfold searchDOI at h
    cases hmt : matchAt (c :: r) with
    | some m0 =>
      rw [hmt] at h
      exact absurd h (by simp)
    | none =>
      rw [hmt] at h
      rintro m hm ⟨pre, suf, heq⟩
      cases pre with
      | nil =>
        exact matchAt_complete (c :: r) m hm ⟨suf, by simpa using heq⟩ hmt
      | cons p ps =>
        injection heq with h1 h2
        exact ih h m hm ⟨ps, suf, h2⟩

theorem searchDOI_some (l m0 : List Char) (h : searchDOI l = some m0) :
    PatMatch m0 ∧ ∃ i, OccAt m0 l i ∧
      ∀ m i', PatMatch m → OccAt m l i' → i ≤ i' := by
  induction l with
  | nil => exact absurd h (by simp [searchDOI])
  | cons c r ih =>
    unfold searchDOI at h
    cases hmt : matchAt (c :: r) with
    | some mm =>
      rw [hmt] at h
      have hm0 : mm = m0 := Option.some.inj h
      subst hm0
      obtain ⟨hpat, suf, hsuf⟩ := matchAt_sound _ _ hmt
      refine ⟨hpat, 0, ⟨[], suf, rfl, by simpa using hsuf⟩, ?_⟩
      intro m i' _ _
      exact Nat.zero_le i'
    | none =>
      rw [hmt] at h
      obtain ⟨hpat, i, hocc, hmin⟩ := ih h
      refine ⟨hpat, i + 1, ?_, ?_⟩
      · obtain ⟨pre, suf, hlen, heq⟩ := hocc
        exact ⟨c :: pre, suf, by simp [hlen], by simp [heq]⟩
      · intro m i' hm hocc'
        obtain ⟨pre, suf, hlen, heq⟩ := hocc'
        cases pre with
        | nil =>
          exact absurd hmt
            (matchAt_complete (c :: r) m hm ⟨suf, by simpa using heq⟩)
        | cons p ps =>
          injection heq with h1 h2
          have hle := hmin m ps.length hm ⟨ps, suf, rfl, h2⟩
          have : ps.length + 1 = i' := by
            rw [← hlen]
            simp
          omega

theorem patMatch_ne_nonWS (m : List Char) (hm : PatMatch m) :
    m ≠ [] ∧ ∀ c ∈ m, isWS c = false := by
  obtain ⟨ds, tok, rfl, hds, _, _, _, hnws⟩ := hm
  refine ⟨by simp, ?_⟩
  intro c hc
  simp only [List.mem_cons, List.mem_append] at hc
  rcases hc with rfl | rfl | rfl | hds2 | rfl | htok2
  · decide
  · decide
  · decide
  · exact dig_not_ws c (hds c hds2)
  · decide
  · exact hnws c htok2

theorem occIn_dropWhile (m l : List Char) (hne : m ≠ [])
    (hnws : ∀ c ∈ m, isWS c = false) (hocc : OccIn m l) :
    OccIn m (l.dropWhile isWS) := by
  induction l with
  | nil =>
    obtain ⟨pre, suf, heq⟩ := hocc
    exfalso
    apply hne
    have := heq.symm
    simp only [List.append_eq_nil] at this
    exact this.1.2
  | cons c r ih =>
    rw [List.dropWhile_cons]
    by_cases hw : isWS c = true
    · rw [if_pos hw]
      apply ih
      obtain ⟨pre, suf, heq⟩ := hocc
      cases pre with
      | nil =>
        exfalso
        cases m with
        | nil => exact hne rfl
        | cons mc mr =>
          simp only [List.nil_append, List.cons_append,
            List.cons.injEq] at heq
          have hmc := hnws mc (List.mem_cons_self mc mr)
          rw [← heq.1] at hmc
          rw [hmc] at hw
          exact absurd hw (by simp)
      | cons p ps =>
        injection heq with h1 h2
        exact ⟨ps, suf, h2⟩
    · rw [if_neg hw]
      exact hocc

theorem occIn_reverse (m l : List Char) (h : OccIn m l) :
    OccIn m.reverse l.reverse := by
  obtain ⟨pre, suf, rfl⟩ := h
  refine ⟨suf.reverse, pre.reverse, ?_⟩
  simp

theorem occIn_pyStrip (m l : List Char) (hne : m ≠ [])
    (hnws : ∀ c ∈ m, isWS c = false) (hocc : OccIn m l) :
    OccIn m (pyStrip l) := by
  unfold pyStrip
  have h1 := occIn_dropWhile m l hne hnws hocc
  have h2 := occIn_reverse _ _ h1
  have h3 := occIn_dropWhile m.reverse _ (by simpa using hne)
    (fun c hc => hnws c (by simpa using hc)) h2
  have h4 := occIn_reverse _ _ h3
  simpa using h4

theorem pyStrip_decomp (l : List Char) : ∃ a b, l = a ++ pyStrip l ++ b := by
  refine ⟨l.takeWhile isWS,
    ((l.dropWhile isWS).reverse.takeWhile isWS).reverse, ?_⟩
  unfold pyStrip
  conv_lhs => rw [← List.takeWhile_append_dropWhile (p := isWS) (l := l)]
  rw [List.append_assoc]
  congr 1
  conv_lhs => rw [← List.reverse_reverse (l.dropWhile isWS)]
  rw [← List.reverse_append]
  congr 1
  conv_lhs => rw [← List.takeWhile_append_dropWhile (p := isWS)
    (l := (l.dropWhile isWS).reverse)]

theorem hasPat_iff_strip (l : List Char) : HasPat l ↔ HasPat (pyStrip l) := by
  constructor
  · rintro ⟨m, hm, hocc⟩
    obtain ⟨hne, hnws⟩ := patMatch_ne_nonWS m hm
    exact ⟨m, hm, occIn_pyStrip m l hne hnws hocc⟩
  · rintro ⟨m, hm, pre, suf, heq⟩
    obtain ⟨a, b, hl⟩ := pyStrip_decomp l
    refine ⟨m, hm, a ++ pre, suf ++ b, ?_⟩
    rw [hl, heq]
    simp

/-- C2: for every input string containing a substring matching the DOI
pattern `10.<4-9 digits>/<non-whitespace token>`, `extract_doi` returns the
leftmost such (greedy) match with all trailing `.,;:)` characters stripped;
for every input containing no such substring it raises `ValueError`
(modelled as `none`). -/
theorem claim_C2_extract_doi (s : List Char) :
    (extract_doi s = none ↔ ¬ HasPat s) ∧
    (∀ d, extract_doi s = some d →
      ∃ m i, PatMatch m ∧ OccAt m (pyStrip s) i ∧ d = rstripPunct m ∧
        ∀ m' i', PatMatch m' → OccAt m' (pyStrip s) i' → i ≤ i') := by
  constructor
  · constructor
    · intro h hp
      unfold extract_doi at h
      cases hs : searchDOI (pyStrip s) with
      | some m =>
        rw [hs] at h
        exact absurd h (by simp)
      | none =>
        rw [hasPat_iff_strip] at hp
        obtain ⟨m, hm, hocc⟩ := hp
        exact searchDOI_none _ hs m hm hocc
    · intro h
      unfold extract_doi
      cases hs : searchDOI (pyStrip s) with
      | none => rfl
      | some m =>
        exfalso
        apply h
        rw [hasPat_iff_strip]
        obtain ⟨hpat, i, hocc, _⟩ := searchDOI_some _ _ hs
        obtain ⟨pre, suf, _, heq⟩ := hocc
        exact ⟨m, hpat, pre, suf, heq⟩
  · intro d hd
    unfold extract_doi at hd
    cases hs : searchDOI (pyStrip s) with
    | none =>
      rw [hs] at hd
      exact absurd hd (by simp)
    | some m =>
      rw [hs] at hd
      simp only [Option.map, Option.some.injEq] at hd
      obtain ⟨hpat, i, hocc, hmin⟩ := searchDOI_some _ _ hs
      exact ⟨m, i, hpat, hocc, hd.symm, hmin⟩

/-- Witness for C2: a concrete publisher URL with a trailing comma; the
theorem applied at it yields the leftmost pattern match and the stripped
DOI. -/
theorem claim_C2_extract_doi_witness :
    ∃ m i, PatMatch m ∧
      OccAt m (pyStrip "See https://doi.org/10.1145/3746059.3747603, ok".data)
        i ∧
      "10.1145/3746059.3747603".data = rstripPunct m ∧
      ∀ m' i', PatMatch m' →
        OccAt m'
          (pyStrip "See https://doi.org/10.1145/3746059.3747603, ok".data)
          i' → i ≤ i' :=
  (claim_C2_extract_doi
      "See https://doi.org/10.1145/3746059.3747603, ok".data).2
    "10.1145/3746059.3747603".data (by decide)

/-! ## C3: proxy URL rewriting

The sequential `str.replace` passes of `_build_proxied_url` are compared
with the specification's simultaneous substitution `substAll`.  A
substitution pass can create a new placeholder occurrence out of the text
inserted by an earlier pass (the counterexample below), so the equality
holds only in the absence of such cascades. -/

theorem replace2_cons (p q : Char) (rep : List Char) (c : Char)
    (l : List Char) (h : ¬ (c = p ∧ l.head? = some q)) :
    replace2 p q rep (c :: l) = c :: replace2 p q rep l := by
  cases l with
  | nil => rfl
  | cons d r =>
    simp only [replace2]
    rw [if_neg (fun hcd => h ⟨hcd.1, by rw [hcd.2]; rfl⟩)]

theorem head_replace2 (p q : Char) (rep : List Char) (c : Char)
    (l : List Char) (h : ¬ (c = p ∧ l.head? = some q)) :
    (replace2 p q rep (c :: l)).head? = some c := by
  rw [replace2_cons p q rep c l h]
  rfl

theorem replace2_match (p q : Char) (rep r : List Char) :
    replace2 p q rep (p :: q :: r) = rep ++ replace2 p q rep r := by
  simp [replace2]

theorem hasSub_cons_false (pat : List Char) (c : Char) (r : List Char)
    (h : hasSub pat (c :: r) = false) : hasSub pat r = false := by
  simp only [hasSub, Bool.or_eq_false_iff] at h
  exact h.2

theorem starts_cons_false (pat : List Char) (c : Char) (r : List Char)
    (h : hasSub pat (c :: r) = false) : startsList pat (c :: r) = false := by
  simp only [hasSub, Bool.or_eq_false_iff] at h
  exact h.1

theorem hasSub_pair_mem (p q : Char) (l : List Char)
    (h : hasSub [p, q] l = true) : p ∈ l := by
  induction l with
  | nil => simp [hasSub] at h
  | cons c r ih =>
    simp only [hasSub, Bool.or_eq_true] at h
    rcases h with h | h
    · simp only [startsList, Bool.and_eq_true, decide_eq_true_eq] at h
      rw [h.1]
      exact List.mem_cons_self c r
    · exact List.mem_cons_of_mem c (ih h)

theorem not_mem_hasSub_pair (p q : Char) (l : List Char) (h : p ∉ l) :
    hasSub [p, q] l = false := by
  cases hs : hasSub [p, q] l
  · rfl
  · exact absurd (hasSub_pair_mem p q l hs) h

theorem getLast?_ne_of_not_mem (p : Char) (l : List Char) (h : p ∉ l) :
    l.getLast? ≠ some p := by
  induction l with
  | nil => simp
  | cons c r ih =>
    cases r with
    | nil =>
      simp only [List.getLast?_singleton, ne_eq, Option.some.injEq]
      intro hc
      exact h (by rw [hc]; exact List.mem_cons_self _ _)
    | cons d r2 =>
      rw [List.getLast?_cons_cons]
      exact ih (fun hm => h (List.mem_cons_of_mem c hm))

theorem replace2_append (p q : Char) (rep : List Char) :
    ∀ a x : List Char, hasSub [p, q] a = false → a.getLast? ≠ some p →
      replace2 p q rep (a ++ x) = a ++ replace2 p q rep x
  | [], _, _, _ => rfl
  | [c], x, _, h2 => by
    have hcp : c ≠ p := by
      simp only [List.getLast?_singleton, ne_eq, Option.some.injEq] at h2
      exact h2
    rw [List.singleton_append, replace2_cons p q rep c x
      (fun hh => hcp hh.1)]
    rfl
  | c :: d :: a2, x, h1, h2 => by
    have hst := starts_cons_false _ _ _ h1
    have hcd : ¬ (c = p ∧ d = q) := by
      intro ⟨hc, hd⟩
      subst hc
      subst hd
      simp [startsList] at hst
    have htl : hasSub [p, q] (d :: a2) = false := hasSub_cons_false _ _ _ h1
    have hl2 : (d :: a2).getLast? ≠ some p := by
      intro hcon
      apply h2
      rw [List.getLast?_cons_cons]
      exact hcon
    show replace2 p q rep (c :: d :: (a2 ++ x)) = _
    simp only [replace2]
    rw [if_neg hcd]
    rw [show (d :: (a2 ++ x)) = (d :: a2) ++ x from rfl,
      replace2_append p q rep (d :: a2) x htl hl2]
    rfl

theorem replace2_id (p q : Char) (rep : List Char) :
    ∀ l : List Char, hasSub [p, q] l = false → replace2 p q rep l = l
  | [], _ => rfl
  | [_], _ => rfl
  | c :: d :: r, h => by
    have hst := starts_cons_false _ _ _ h
    have hcd : ¬ (c = p ∧ d = q) := by
      intro ⟨hc, hd⟩
      subst hc
      subst hd
      simp [startsList] at hst
    simp only [replace2]
    rw [if_neg hcd, replace2_id p q rep (d :: r) (hasSub_cons_false _ _ _ h)]

theorem hasSub_append_false (p q : Char) :
    ∀ a x : List Char, hasSub [p, q] a = false → a.getLast? ≠ some p →
      hasSub [p, q] x = false → hasSub [p, q] (a ++ x) = false
  | [], _, _, _, hx => hx
  | [c], x, _, h2, hx => by
    have hcp : c ≠ p := by
      simp only [List.getLast?_singleton, ne_eq, Option.some.injEq] at h2
      exact h2
    rw [List.singleton_append]
    simp only [hasSub, hx, Bool.or_false]
    simp [startsList, Ne.symm hcp]
  | c :: d :: a2, x, h1, h2, hx => by
    have hst := starts_cons_false _ _ _ h1
    have htl : hasSub [p, q] (d :: a2) = false := hasSub_cons_false _ _ _ h1
    have hl2 : (d :: a2).getLast? ≠ some p := by
      intro hcon
      apply h2
      rw [List.getLast?_cons_cons]
      exact hcon
    have hrec := hasSub_append_false p q (d :: a2) x htl hl2 hx
    show hasSub [p, q] (c :: ((d :: a2) ++ x)) = false
    rw [show hasSub [p, q] (c :: ((d :: a2) ++ x)) =
      (startsList [p, q] (c :: ((d :: a2) ++ x)) ||
        hasSub [p, q] ((d :: a2) ++ x)) from rfl, hrec, Bool.or_false]
    simp only [List.cons_append, startsList] at hst ⊢
    exact hst

theorem getLast?_append_ne (a x : List Char) (p : Char)
    (ha : a.getLast? ≠ some p) (hx : x.getLast? ≠ some p) :
    (a ++ x).getLast? ≠ some p := by
  cases x with
  | nil => simpa using ha
  | cons y ys =>
    rw [List.getLast?_append_cons]
    exact hx

/-! Structure of `quote` output: within one quoted byte no `%h` or `%p`
occurs, and a quoted byte never ends in `%`. -/

set_option maxRecDepth 4096 in
theorem quoteByte_clean : ∀ b, b < 256 →
    quoteByte b ≠ [] ∧ hasSub ['%', 'h'] (quoteByte b) = false ∧
    hasSub ['%', 'p'] (quoteByte b) = false ∧
    (quoteByte b).getLast? ≠ some '%' := by decide

theorem utf8Bytes_lt (c : Char) : ∀ b ∈ utf8Bytes c, b < 256 := by
  have hv := c.valid
  unfold UInt32.isValidChar at hv
  unfold Nat.isValidChar at hv
  have hn : c.toNat < 0x110000 := by
    show c.val.toNat < 0x110000
    omega
  intro b hb
  unfold utf8Bytes at hb
  by_cases h1 : c.toNat < 0x80
  · rw [if_pos h1] at hb
    simp only [List.mem_singleton] at hb
    omega
  · rw [if_neg h1] at hb
    by_cases h2 : c.toNat < 0x800
    · rw [if_pos h2] at hb
      have hd : c.toNat / 0x40 < 0x20 := by
        rw [Nat.div_lt_iff_lt_mul (by norm_num)]
        omega
      have hm : c.toNat % 0x40 < 0x40 := Nat.mod_lt _ (by norm_num)
      simp only [List.mem_cons, List.mem_singleton, List.not_mem_nil,
        or_false] at hb
      rcases hb with rfl | rfl <;> omega
    · rw [if_neg h2] at hb
      by_cases h3 : c.toNat < 0x10000
      · rw [if_pos h3] at hb
        have hd : c.toNat / 0x1000 < 0x10 := by
          rw [Nat.div_lt_iff_lt_mul (by norm_num)]
          omega
        have hm1 : c.toNat / 0x40 % 0x40 < 0x40 := Nat.mod_lt _ (by norm_num)
        have hm2 : c.toNat % 0x40 < 0x40 := Nat.mod_lt _ (by norm_num)
        simp only [List.mem_cons, List.not_mem_nil, or_false] at hb
        rcases hb with rfl | rfl | rfl <;> omega
      · rw [if_neg h3] at hb
        have hd : c.toNat / 0x40000 < 0x10 := by
          rw [Nat.div_lt_iff_lt_mul (by norm_num)]
          omega
        have hm1 : c.toNat / 0x1000 % 0x40 < 0x40 := Nat.mod_lt _ (by norm_num)
        have hm2 : c.toNat / 0x40 % 0x40 < 0x40 := Nat.mod_lt _ (by norm_num)
        have hm3 : c.toNat % 0x40 < 0x40 := Nat.mod_lt _ (by norm_num)
        simp only [List.mem_cons, List.not_mem_nil, or_false] at hb
        rcases hb with rfl | rfl | rfl | rfl <;> omega

theorem quoteJoin_clean (bs : List Nat) (hb : ∀ b ∈ bs, b < 256) :
    hasSub ['%', 'h'] ((bs.map quoteByte).flatten) = false ∧
    hasSub ['%', 'p'] ((bs.map quoteByte).flatten) = false ∧
    ((bs.map quoteByte).flatten).getLast? ≠ some '%' := by
  induction bs with
  | nil => exact ⟨rfl, rfl, by simp⟩
  | cons b bs ih =>
    obtain ⟨ih1, ih2, ih3⟩ := ih (fun x hx => hb x (List.mem_cons_of_mem b hx))
    obtain ⟨hq0, hq1, hq2, hq3⟩ := quoteByte_clean b (hb b (List.mem_cons_self b bs))
    rw [List.map_cons, List.flatten_cons]
    exact ⟨hasSub_append_false '%' 'h' _ _ hq1 hq3 ih1,
      hasSub_append_false '%' 'p' _ _ hq2 hq3 ih2,
      getLast?_append_ne _ _ _ hq3 ih3⟩

theorem pyQuote_clean (s : List Char) :
    hasSub ['%', 'h'] (pyQuote s) = false ∧
    hasSub ['%', 'p'] (pyQuote s) = false ∧
    (pyQuote s).getLast? ≠ some '%' := by
  unfold pyQuote
  apply quoteJoin_clean
  intro b hb
  rw [List.mem_flatten] at hb
  obtain ⟨l, hl, hbl⟩ := hb
  rw [List.mem_map] at hl
  obtain ⟨c, _, rfl⟩ := hl
  exact utf8Bytes_lt c b hbl

/-- Core cascade-freedom lemma: when the `%u` replacement text contains no
`%h` or `%p` and does not end in `%` (true of `quote` output), the `%h`
replacement text contains no `%p` and does not end in `%`, and the template
contains neither `%%u` nor `%%h`, the three sequential replacement passes
agree with the simultaneous substitution. -/
theorem seq_eq_substAll (Q N P : List Char)
    (hQh : hasSub ['%', 'h'] Q = false) (hQp : hasSub ['%', 'p'] Q = false)
    (hQl : Q.getLast? ≠ some '%') (hNp : hasSub ['%', 'p'] N = false)
    (hNl : N.getLast? ≠ some '%') :
    ∀ n t, t.length ≤ n →
      hasSub ['%', '%', 'u'] t = false → hasSub ['%', '%', 'h'] t = false →
      replace2 '%' 'p' P (replace2 '%' 'h' N (replace2 '%' 'u' Q t)) =
        substAll Q N P t := by
  intro n
  induction n with
  | zero =>
    intro t ht _ _
    cases t with
    | nil => rfl
    | cons c r => simp at ht
  | succ n ih =>
    intro t ht hBu hBh
    cases t with
    | nil => rfl
    | cons c t1 =>
    cases t1 with
    | nil => rfl
    | cons d t2 =>
      have hlen2 : t2.length ≤ n := by
        simp only [List.length_cons] at ht
        omega
      have hlen1 : (d :: t2).length ≤ n := by
        simp only [List.length_cons] at ht ⊢
        omega
      have hBu1 : hasSub ['%', '%', 'u'] (d :: t2) = false :=
        hasSub_cons_false _ _ _ hBu
      have hBh1 : hasSub ['%', '%', 'h'] (d :: t2) = false :=
        hasSub_cons_false _ _ _ hBh
      have hBu2 : hasSub ['%', '%', 'u'] t2 = false :=
        hasSub_cons_false _ _ _ hBu1
      have hBh2 : hasSub ['%', '%', 'h'] t2 = false :=
        hasSub_cons_false _ _ _ hBh1
      by_cases hcu : c = '%' ∧ d = 'u'
      · obtain ⟨rfl, rfl⟩ := hcu
        rw [replace2_match, replace2_append '%' 'h' N Q _ hQh hQl,
          replace2_append '%' 'p' P Q _ hQp hQl, ih t2 hlen2 hBu2 hBh2]
        simp [substAll]
      · by_cases hch : c = '%' ∧ d = 'h'
        · obtain ⟨rfl, rfl⟩ := hch
          have e1 : replace2 '%' 'u' Q ('%' :: 'h' :: t2) =
              '%' :: 'h' :: replace2 '%' 'u' Q t2 := by
            simp only [replace2]
            rw [if_neg (by decide),
              replace2_cons '%' 'u' Q 'h' t2 (fun hh => absurd hh.1 (by decide))]
          rw [e1, replace2_match, replace2_append '%' 'p' P N _ hNp hNl,
            ih t2 hlen2 hBu2 hBh2]
          simp [substAll]
        · by_cases hcp : c = '%' ∧ d = 'p'
          · obtain ⟨rfl, rfl⟩ := hcp
            have e1 : replace2 '%' 'u' Q ('%' :: 'p' :: t2) =
                '%' :: 'p' :: replace2 '%' 'u' Q t2 := by
              simp only [replace2]
              rw [if_neg (by decide),
                replace2_cons '%' 'u' Q 'p' t2
                  (fun hh => absurd hh.1 (by decide))]
            have e2 : replace2 '%' 'h' N
                ('%' :: 'p' :: replace2 '%' 'u' Q t2) =
                '%' :: 'p' :: replace2 '%' 'h' N (replace2 '%' 'u' Q t2) := by
              simp only [replace2]
              rw [if_neg (by decide),
                replace2_cons '%' 'h' N 'p' _
                  (fun hh => absurd hh.1 (by decide))]
            rw [e1, e2, replace2_match, ih t2 hlen2 hBu2 hBh2]
            simp [substAll]
          · have hsub : substAll Q N P (c :: d :: t2) =
                c :: substAll Q N P (d :: t2) := by
              simp only [substAll]
              rw [if_neg hcu, if_neg hch, if_neg hcp]
            rw [hsub, ← ih (d :: t2) hlen1 hBu1 hBh1]
            by_cases hc : c = '%'
            case neg =>
              rw [replace2_cons '%' 'u' Q c (d :: t2) (fun hh => hc hh.1),
                replace2_cons '%' 'h' N c _ (fun hh => hc hh.1),
                replace2_cons '%' 'p' P c _ (fun hh => hc hh.1)]
            case pos =>
              subst hc
              have hdu : d ≠ 'u' := fun h => hcu ⟨rfl, h⟩
              have hdh : d ≠ 'h' := fun h => hch ⟨rfl, h⟩
              have hdp : d ≠ 'p' := fun h => hcp ⟨rfl, h⟩
              have hnd : ¬ (d = '%' ∧ t2.head? = some 'u') := by
                rintro ⟨rfl, hh⟩
                cases t2 with
                | nil => simp at hh
                | cons e t3 =>
                  simp only [List.head?_cons, Option.some.injEq] at hh
                  subst hh
                  simp [hasSub, startsList] at hBu
              have hheadR1 : (replace2 '%' 'u' Q (d :: t2)).head? = some d :=
                head_replace2 '%' 'u' Q d t2 hnd
              have hheadR2 : (replace2 '%' 'h' N
                  (replace2 '%' 'u' Q (d :: t2))).head? = some d := by
                by_cases hd : d = '%'
                · subst hd
                  rw [replace2_cons '%' 'u' Q '%' t2 hnd]
                  have hR1t2 : (replace2 '%' 'u' Q t2).head? ≠ some 'h' := by
                    cases t2 with
                    | nil => simp [replace2]
                    | cons e t3 =>
                      by_cases he : e = '%' ∧ t3.head? = some 'u'
                      · exfalso
                        obtain ⟨rfl, hh⟩ := he
                        cases t3 with
                        | nil => simp at hh
                        | cons f t4 =>
                          simp only [List.head?_cons,
                            Option.some.injEq] at hh
                          subst hh
                          simp [hasSub, startsList] at hBu
                      · rw [head_replace2 '%' 'u' Q e t3 he]
                        simp only [ne_eq, Option.some.injEq]
                        intro hcon
                        subst hcon
                        simp [hasSub, startsList] at hBh
                  rw [replace2_cons '%' 'h' N '%' _ (fun hh => hR1t2 hh.2)]
                  rfl
                · rw [replace2_cons '%' 'u' Q d t2 (fun hh => hd hh.1),
                    replace2_cons '%' 'h' N d _ (fun hh => hd hh.1)]
                  rfl
              rw [replace2_cons '%' 'u' Q '%' (d :: t2)
                (fun hh => hdu (by simpa using hh.2))]
              rw [replace2_cons '%' 'h' N '%' _ (fun hh => hdh (by
                rw [hheadR1] at hh
                simpa using hh.2))]
              rw [replace2_cons '%' 'p' P '%' _ (fun hh => hdp (by
                rw [hheadR2] at hh
                simpa using hh.2))]

theorem guarded_replace2 (p q : Char) (rep l : List Char) :
    (if hasSub [p, q] l = true then replace2 p q rep l else l) =
      replace2 p q rep l := by
  by_cases h : hasSub [p, q] l = true
  · rw [if_pos h]
  · rw [if_neg h, replace2_id p q rep l (by
      revert h
      cases hasSub [p, q] l <;> simp)]

/-- C3 counterexample: the claim that `_build_proxied_url` performs a
simultaneous substitution of the three placeholders fails for the template
`%%u` and target `https://x/y` — the sequential `%u` pass inserts the
percent-encoded URL right after a literal `%`, creating a spurious `%h`
occurrence that the later `%h` pass rewrites with the hostname. -/
theorem claim_C3_proxy_rewrite_counterexample :
    build_proxied_url "%%u".data "https://x/y".data ≠
      spec_proxied_url "%%u".data "https://x/y".data := by
  decide

/-- C3 (amended): for every non-empty proxy template and target URL such
that the target's hostname contains no `%` and the template contains
neither `%%u` nor `%%h` (so no substitution pass can create a new
placeholder occurrence out of inserted text), `_build_proxied_url` replaces
every occurrence of `%u` with the percent-encoded full target URL, `%h`
with the hostname, and `%p` with the path+query+fragment with leading
slashes stripped, leaves any other `%`-placeholder verbatim, and prepends
`https://` when the result lacks an `http(s)` scheme — that is, it agrees
with the specification's simultaneous substitution. -/
theorem claim_C3_proxy_rewrite_amended (tmpl target : List Char)
    (htm : tmpl ≠ [])
    (hN : '%' ∉ (pyUrlparse [] target).netloc)
    (hBu : hasSub "%%u".data tmpl = false)
    (hBh : hasSub "%%h".data tmpl = false) :
    build_proxied_url tmpl target = spec_proxied_url tmpl target := by
  unfold build_proxied_url spec_proxied_url
  rw [if_neg htm, if_neg htm]
  dsimp only
  congr 1
  rw [guarded_replace2, guarded_replace2, guarded_replace2]
  obtain ⟨hQh, hQp, hQl⟩ := pyQuote_clean target
  exact seq_eq_substAll (pyQuote target) (pyUrlparse [] target).netloc
    (proxyPathPart (pyUrlparse [] target)) hQh hQp hQl
    (not_mem_hasSub_pair '%' 'p' _ hN) (getLast?_ne_of_not_mem '%' _ hN)
    tmpl.length tmpl le_rfl hBu hBh

/-- Witness for C3 (amended), at the specification's own example: the
template `https://proxy.edu/login?qurl=%u` applied to
`https://dl.acm.org/doi/10.1/x` agrees with the simultaneous substitution
and yields the percent-encoded query, with no placeholder left
unresolved. -/
theorem claim_C3_proxy_rewrite_amended_witness :
    build_proxied_url "https://proxy.edu/login?qurl=%u".data
        "https://dl.acm.org/doi/10.1/x".data =
      spec_proxied_url "https://proxy.edu/login?qurl=%u".data
        "https://dl.acm.org/doi/10.1/x".data ∧
    build_proxied_url "https://proxy.edu/login?qurl=%u".data
        "https://dl.acm.org/doi/10.1/x".data =
      ("https://proxy.edu/login?qurl=" ++
        "https%3A%2F%2Fdl.acm.org%2Fdoi%2F10.1%2Fx").data :=
  ⟨claim_C3_proxy_rewrite_amended "https://proxy.edu/login?qurl=%u".data
      "https://dl.acm.org/doi/10.1/x".data (by decide) (by decide)
      (by decide) (by decide),
    by decide⟩

end PaperScraper
